import Mathlib

/-!
# Verification of `skip_list.h` (SkipList)

A shallow embedding of the skip list container from `src/skip_list.h`,
instantiated at `SkipList<int, int>` with the default `_MAX_LEVEL = MAX_LEVEL = 32`
and the `DefaultComparator` (the instantiation the specification's numeric
statements — `numeric_limits<int>::min()`, the `-1` remove sentinel, key `99` —
presume).

Modelling choices:
* The node heap is an explicit list of nodes; an address is an index into that
  list; the head sentinel lives at address `0`.  `new Node(...)` appends to the
  heap; `delete` is modelled as a no-op on the heap (the freed node simply
  becomes unreachable), which is observation-equivalent for every defined
  behaviour of the C++ code.
* `int` keys and values are modelled as `Int`; `numeric_limits<int>::min()` is
  the literal `-2^31`.
* The `while` loops of the C++ code are modelled with explicit fuel
  (`s.heap.length` steps, enough for every chain of distinct nodes).
* The random level drawn by `randomLevel` is made an explicit argument of
  `insert` (the C++ code draws it from a process-wide `mt19937_64`); the
  function `randomLevel` itself is modelled separately on the drawn 64-bit
  word.
-/

namespace SkipListVerif

/-- `MAX_LEVEL` constant from the source (`const int MAX_LEVEL = 32`). -/
def MAX_LEVEL : Nat := 32

/-- `std::numeric_limits<int>::min()`, used for the head sentinel's key and
value and for the absent-search sentinel. -/
def INT_MIN : Int := -(2 ^ 31)

/-- `DefaultComparator::operator()`: `a == b ? 0 : a < b ? -1 : 1`. -/
def comparator_ (a b : Int) : Int :=
  if a = b then 0 else if a < b then -1 else 1

/-- A `SkipList::Node`: key, value and the forward-link array `level`
(one entry per level the node participates in; `none` is a null pointer,
`some a` points to the node at heap address `a`). -/
structure Node where
  key : Int
  value : Int
  next : List (Option Nat)
  deriving Repr, DecidableEq

/-- The skip list state: the tracked maximum level `maxLevel_` and the node
heap.  The head sentinel is the node at address `0`. -/
structure SL where
  maxLevel_ : Nat
  heap : List Node
  deriving Repr, DecidableEq

/-- `createNode(level, key, value)`: a node whose `level` array has `level`
null-initialised entries (the constructor `memset`s the array to zero). -/
def createNode (level : Nat) (key value : Int) : Node :=
  ⟨key, value, List.replicate level none⟩

/-- The `SkipList()` constructor with `_MAX_LEVEL = maxlv`:
`maxLevel_ = 0` and a head sentinel
`createNode(_MAX_LEVEL, numeric_limits<int>::min(), numeric_limits<int>::min())`. -/
def mkSkipList (maxlv : Nat) : SL :=
  ⟨0, [createNode maxlv INT_MIN INT_MIN]⟩

/-- A freshly constructed `SkipList<int, int>` (default `_MAX_LEVEL = 32`). -/
def fresh : SL := mkSkipList MAX_LEVEL

/-- Dereference a heap address (out-of-heap reads, which are undefined
behaviour in C++ and never happen in well-formed states, yield a dummy). -/
def SL.node (s : SL) (a : Nat) : Node :=
  s.heap.getD a (createNode 0 0 0)

/-- `p->level[i].next` for the node at address `a`. -/
def SL.nxt (s : SL) (a i : Nat) : Option Nat :=
  (s.node a).next.getD i none

/-- `a->level[i].next = t` (writes beyond the node's allocated `level` array,
undefined behaviour in C++, are modelled as no-ops and never happen in
well-formed states). -/
def SL.setNext (s : SL) (a i : Nat) (t : Option Nat) : SL :=
  ⟨s.maxLevel_, s.heap.set a { s.node a with next := (s.node a).next.set i t }⟩

/-- `node->value = v` for the node at address `a`. -/
def SL.setValue (s : SL) (a : Nat) (v : Int) : SL :=
  ⟨s.maxLevel_, s.heap.set a { s.node a with value := v }⟩

/-!  ## The while loops.

Each C++ `while` loop is modelled by a fuel-indexed recursion; the fuel used by
the operations is `s.heap.length`, which suffices for every chain of distinct
heap nodes (so on well-formed states the model agrees with the C++ loop). -/

/-- Generic advancing loop
`while (p->level[i].next && P(*p->level[i].next)) p = p->level[i].next;`. -/
def advW (s : SL) (P : Node → Prop) [DecidablePred P] (i : Nat) : Nat → Nat → Nat
  | p, 0 => p
  | p, f + 1 =>
    match s.nxt p i with
    | none => p
    | some q => if P (s.node q) then advW s P i q f else p

/-- The advancing condition of `searchNode`:
`comparator_(next->key, key) <= 0`. -/
def searchCond (key : Int) (n : Node) : Prop := comparator_ n.key key ≤ 0

instance (key : Int) : DecidablePred (searchCond key) := by
  intro n; unfold searchCond; infer_instance

/-- The advancing condition of `insert`:
`comparator_(next->key, key) < 0 || (comparator_(next->key, key) == 0 &&
comparator_(next->value, value) < 0)`. -/
def insertCond (key value : Int) (n : Node) : Prop :=
  comparator_ n.key key < 0 ∨ (comparator_ n.key key = 0 ∧ comparator_ n.value value < 0)

instance (key value : Int) : DecidablePred (insertCond key value) := by
  intro n; unfold insertCond; infer_instance

/-- The advancing condition of `remove`: `comparator_(next->key, key) < 0`. -/
def removeCond (key : Int) (n : Node) : Prop := comparator_ n.key key < 0

instance (key : Int) : DecidablePred (removeCond key) := by
  intro n; unfold removeCond; infer_instance

/-- The level-descending loop of `searchNode`
(`for (int i = maxLevel_ - 1; i >= 0; --i) { while ... }`); the second
argument is the number of levels still to process. -/
def descSearch (s : SL) (key : Int) : Nat → Nat → Nat
  | p, 0 => p
  | p, i + 1 => descSearch s key (advW s (searchCond key) i p s.heap.length) i

/-- `SkipList::searchNode(key)`: descend from `maxLevel_ - 1` to `0` advancing
while `comparator_(next->key, key) <= 0`, then `return p->key == key ? p : nullptr`. -/
def SL.searchNode (s : SL) (key : Int) : Option Nat :=
  let p := descSearch s key 0 s.maxLevel_
  if (s.node p).key = key then some p else none

/-- `SkipList::search(key)`: the found node's value, or
`numeric_limits<int>::min()`. -/
def SL.search (s : SL) (key : Int) : Int :=
  match s.searchNode key with
  | some p => (s.node p).value
  | none => INT_MIN

/-- `SkipList::update(key, value)`: overwrite the found node's value and
return `0`, else return `1`. -/
def SL.update (s : SL) (key value : Int) : Int × SL :=
  match s.searchNode key with
  | some p => (0, s.setValue p value)
  | none => (1, s)

/-- The level loop of `insert` threading the mutated state and the cursor `p`:
at each level `i` advance `p` while `insertCond`, and if `i < level` splice the
new node (at address `na`) in after `p`
(`node->level[i].next = p->level[i].next; p->level[i].next = node;`). -/
def insertLoop (key value : Int) (lvl na : Nat) : SL → Nat → Nat → SL
  | s, _, 0 => s
  | s, p, i + 1 =>
    insertLoop key value lvl na
      (if i < lvl then
        ((s.setNext na i (s.nxt (advW s (insertCond key value) i p s.heap.length) i)).setNext
          (advW s (insertCond key value) i p s.heap.length) i (some na))
      else s)
      (advW s (insertCond key value) i p s.heap.length) i

/-- `SkipList::insert(key, value)` with the drawn random level made explicit:
update `maxLevel_`, allocate the node, run the level loop from
`maxLevel_ - 1` down to `0`, return `0`. -/
def SL.insert (s : SL) (key value : Int) (lvl : Nat) : Int × SL :=
  (0, insertLoop key value lvl s.heap.length
        ⟨max s.maxLevel_ lvl, s.heap ++ [createNode lvl key value]⟩ 0
        (max s.maxLevel_ lvl))

/-- The level loop of `remove` threading the state, cursor, recorded node to
delete and recorded value: at each level advance while
`comparator_(next->key, key) < 0`; if the next node's key compares equal,
record it and unlink it at this level. -/
def removeLoop (key : Int) : SL → Nat → Option Nat → Int → Nat → SL × Option Nat × Int
  | s, _, dn, v, 0 => (s, dn, v)
  | s, p, dn, v, i + 1 =>
    match s.nxt (advW s (removeCond key) i p s.heap.length) i with
    | some q =>
      if comparator_ (s.node q).key key = 0 then
        removeLoop key
          (s.setNext (advW s (removeCond key) i p s.heap.length) i (s.nxt q i))
          (advW s (removeCond key) i p s.heap.length) (some q) (s.node q).value i
      else
        removeLoop key s (advW s (removeCond key) i p s.heap.length) dn v i
    | none => removeLoop key s (advW s (removeCond key) i p s.heap.length) dn v i

/-- `SkipList::remove(key)`: run the level loop from `maxLevel_ - 1` down to
`0` starting with `value = -1`, then `delete delNode` (a heap no-op in this
model — the node is unreachable afterwards) and return the recorded value. -/
def SL.remove (s : SL) (key : Int) : Int × SL :=
  ((removeLoop key s 0 none (-1) s.maxLevel_).2.2, (removeLoop key s 0 none (-1) s.maxLevel_).1)

/-- One step of `clear`'s inner `for` loop:
`if (head_->level[i].next) head_->level[i].next = head_->level[i].next->level[i].next;`. -/
def clearOnce (s : SL) (i : Nat) : SL :=
  match s.nxt 0 i with
  | some q => s.setNext 0 i (s.nxt q i)
  | none => s

/-- `clear`'s inner `for (int i = 0; i < maxLevel_; ++i)` loop: `i` is the
current index, the last argument the remaining iteration count. -/
def clearPass (s : SL) : Nat → Nat → SL
  | _, 0 => s
  | i, c + 1 => clearPass (clearOnce s i) (i + 1) c

/-- `clear`'s outer `while (head_->level[0].next)` loop (`delete delNode` is a
heap no-op in this model). -/
def clearLoop : SL → Nat → SL
  | s, 0 => s
  | s, f + 1 =>
    match s.nxt 0 0 with
    | none => s
    | some _ => clearLoop (clearPass s 0 s.maxLevel_) f

/-- `SkipList::clear()`. -/
def SL.clear (s : SL) : SL := clearLoop s s.heap.length

/-!  ## `randomLevel`

`randomLevel` draws one 64-bit word `rd` from a `std::mt19937_64` and loops
`for (int i = 0; i < level; ++i) if ((rd & (1 << i)) == 0) return i + 1;`
finally returning `level` (the call site uses the default `level = MAX_LEVEL = 32`).
`1 << i` is an `int` shift: for `i < 31` the mask is the single bit `2^i`; for
`i = 31` the `int` value `1 << 31` is `INT_MIN` (two's complement), which
sign-extends to the 64-bit pattern `0xFFFFFFFF80000000`, i.e. bits 31..63.
We model the word as a natural number below `2^64` and the mask with exactly
that two's-complement semantics. -/

/-- The 64-bit pattern of the `long long` value `1 << i` (an `int` shift,
sign-extended), for `0 ≤ i ≤ 31`. -/
def intShiftMask (i : Nat) : Nat :=
  if i < 31 then 2 ^ i else 2 ^ 64 - 2 ^ 31

/-- The scanning loop of `randomLevel`. -/
def rlLoop (rd level : Nat) : Nat → Nat
  | i =>
    if _h : i < level then
      if rd &&& intShiftMask i = 0 then i + 1 else rlLoop rd level (i + 1)
    else level
  termination_by i => level - i

/-- `SkipList::randomLevel(level)` on the drawn word `rd`. -/
def randomLevel (rd level : Nat) : Nat := rlLoop rd level 0

/-- Scan for the first zero bit of `rd`, starting at bit `i`, with fuel. -/
def fzb (rd : Nat) : Nat → Nat → Nat
  | i, 0 => i
  | i, f + 1 => if rd.testBit i then fzb rd (i + 1) f else i

/-- Index of the first zero bit of `rd` (scanning bit positions `0..64`; for a
64-bit word `rd < 2^64` the virtual 65th bit is zero, so this is the least `i`
with `testBit rd i = false`). -/
def firstZeroBit (rd : Nat) : Nat := fzb rd 0 65

/-!  ## Chains

`chainIs s i a l` states that, following `level[i].next` links from address
`a`, one passes exactly through the addresses in `l` and then a null link.
`sChain s i` extracts the level-`i` chain hanging off the head. -/

def chainIs (s : SL) (i : Nat) : Nat → List Nat → Prop
  | a, [] => s.nxt a i = none
  | a, b :: l => s.nxt a i = some b ∧ chainIs s i b l

instance chainIsDec (s : SL) (i : Nat) : ∀ a l, Decidable (chainIs s i a l)
  | _, [] => inferInstanceAs (Decidable (_ = _))
  | _, _ :: l =>
    @instDecidableAnd _ _ (inferInstanceAs (Decidable (_ = _))) (chainIsDec s i _ l)

/-- Chain extraction with fuel. -/
def chainF (s : SL) (i : Nat) : Nat → Nat → List Nat
  | _, 0 => []
  | a, f + 1 =>
    match s.nxt a i with
    | none => []
    | some b => b :: chainF s i b f

/-- The level-`i` chain of stored nodes reachable from the head. -/
def sChain (s : SL) (i : Nat) : List Nat := chainF s i 0 s.heap.length

/-- Lexicographic (key, value) strict order — the order `insert` walks by. -/
def lexLT (p q : Int × Int) : Prop := p.1 < q.1 ∨ (p.1 = q.1 ∧ p.2 < q.2)

/-- Lexicographic (key, value) weak order. -/
def lexLE (p q : Int × Int) : Prop := p.1 < q.1 ∨ (p.1 = q.1 ∧ p.2 ≤ q.2)

instance : ∀ p q, Decidable (lexLT p q) := by intro p q; unfold lexLT; infer_instance
instance : ∀ p q, Decidable (lexLE p q) := by intro p q; unfold lexLE; infer_instance

/-- The (key, value) pair stored at address `a`. -/
def kv (s : SL) (a : Nat) : Int × Int := ((s.node a).key, (s.node a).value)

/-- Some node of the level-0 chain stores key `K`. -/
def hasKey (s : SL) (K : Int) : Prop := ∃ a ∈ sChain s 0, (s.node a).key = K

instance (s : SL) (K : Int) : Decidable (hasKey s K) := by
  unfold hasKey; infer_instance

/-- Well-formedness of a skip list state: what every state reachable through
the public API satisfies.  Chains are weakly sorted by key (not by (key,value):
`update` can break value order among equal keys). -/
structure WF (s : SL) : Prop where
  hlen : 0 < s.heap.length
  hkey : (s.node 0).key = INT_MIN
  hht : (s.node 0).next.length = MAX_LEVEL
  hml : s.maxLevel_ ≤ MAX_LEVEL
  hch : ∀ i < MAX_LEVEL, chainIs s i 0 (sChain s i)
  hvalid : ∀ i < MAX_LEVEL, ∀ a ∈ sChain s i, 0 < a ∧ a < s.heap.length
  hnd : ∀ i < MAX_LEVEL, (sChain s i).Nodup
  hhigh : ∀ i < MAX_LEVEL, s.maxLevel_ ≤ i → sChain s i = []
  hsub : ∀ i, i + 1 < MAX_LEVEL → List.Sublist (sChain s (i + 1)) (sChain s i)
  hheight : ∀ i < MAX_LEVEL, ∀ a ∈ sChain s i, i < (s.node a).next.length
  hsort : ∀ i < MAX_LEVEL,
    List.Pairwise (fun a b => (s.node a).key ≤ (s.node b).key) (sChain s i)
  hkmin : ∀ a ∈ sChain s 0, INT_MIN ≤ (s.node a).key

/-- Chains additionally sorted by the full (key, value) lexicographic order —
holds in every state reachable without `update`, and is what `insert`'s
duplicate placement is sensitive to. -/
def LexSorted (s : SL) : Prop :=
  ∀ i < MAX_LEVEL, List.Pairwise (fun a b => lexLE (kv s a) (kv s b)) (sChain s i)

instance (s : SL) : Decidable (LexSorted s) := by
  unfold LexSorted; infer_instance

/-- The states reachable from a freshly constructed `SkipList<int, int>` by the
public operations (`insert`'s level is any value `randomLevel` can return;
keys and values are ints, hence bounded below by `INT_MIN`). -/
inductive Reach : SL → Prop
  | base : Reach fresh
  | ins {s} (k v : Int) (lvl : Nat) : Reach s → 1 ≤ lvl → lvl ≤ MAX_LEVEL →
      INT_MIN ≤ k → INT_MIN ≤ v → Reach (s.insert k v lvl).2
  | upd {s} (k v : Int) : Reach s → INT_MIN ≤ k → INT_MIN ≤ v →
      Reach (s.update k v).2
  | rem {s} (k : Int) : Reach s → Reach (s.remove k).2
  | clr {s} : Reach s → Reach s.clear

/-! ## Comparator characterisations -/

theorem comparator_eq_zero_iff {a b : Int} : comparator_ a b = 0 ↔ a = b := by
  unfold comparator_
  split
  · simp_all
  · split <;> simp_all

theorem comparator_lt_zero_iff {a b : Int} : comparator_ a b < 0 ↔ a < b := by
  unfold comparator_
  split
  · omega
  · split <;> omega

theorem comparator_le_zero_iff {a b : Int} : comparator_ a b ≤ 0 ↔ a ≤ b := by
  unfold comparator_
  split
  · omega
  · split <;> omega

theorem searchCond_iff {K : Int} {n : Node} : searchCond K n ↔ n.key ≤ K := by
  unfold searchCond; exact comparator_le_zero_iff

theorem removeCond_iff {K : Int} {n : Node} : removeCond K n ↔ n.key < K := by
  unfold removeCond; exact comparator_lt_zero_iff

theorem insertCond_iff {k v : Int} {n : Node} :
    insertCond k v n ↔ lexLT (n.key, n.value) (k, v) := by
  unfold insertCond lexLT
  rw [comparator_lt_zero_iff, comparator_eq_zero_iff, comparator_lt_zero_iff]

theorem lexLE_of_not_lexLT {p q : Int × Int} (h : ¬ lexLT p q) : lexLE q p := by
  unfold lexLT at h; unfold lexLE
  rcases lt_trichotomy q.1 p.1 with h1 | h1 | h1
  · exact Or.inl h1
  · exact Or.inr ⟨h1, by omega⟩
  · exact absurd (Or.inl h1) h

theorem lexLE_trans {p q r : Int × Int} (h1 : lexLE p q) (h2 : lexLE q r) : lexLE p r := by
  unfold lexLE at *; omega

theorem lexLT_of_le_of_lt {p q r : Int × Int} (h1 : lexLE p q) (h2 : lexLT q r) : lexLT p r := by
  unfold lexLE at h1; unfold lexLT at *; omega

/-! ## State accessor lemmas -/

theorem SL.setNext_maxLevel (s : SL) (a i : Nat) (t : Option Nat) :
    (s.setNext a i t).maxLevel_ = s.maxLevel_ := rfl

theorem SL.setNext_heap_length (s : SL) (a i : Nat) (t : Option Nat) :
    (s.setNext a i t).heap.length = s.heap.length := by
  unfold SL.setNext; simp

theorem SL.node_setNext_ne (s : SL) {a b : Nat} (i : Nat) (t : Option Nat) (h : b ≠ a) :
    (s.setNext a i t).node b = s.node b := by
  unfold SL.setNext SL.node
  simp only [List.getD_eq_getElem?_getD, List.getElem?_set_ne (fun he => h he.symm)]

theorem SL.node_setNext_self (s : SL) {a : Nat} (i : Nat) (t : Option Nat)
    (ha : a < s.heap.length) :
    (s.setNext a i t).node a = { s.node a with next := (s.node a).next.set i t } := by
  unfold SL.setNext SL.node
  simp only [List.getD_eq_getElem?_getD, List.getElem?_set_self ha]
  rw [List.getElem?_eq_getElem ha]
  rfl

theorem SL.nxt_setNext_ne (s : SL) {a b : Nat} {i j : Nat} (t : Option Nat)
    (h : b ≠ a ∨ j ≠ i) : (s.setNext a i t).nxt b j = s.nxt b j := by
  rcases h with h | h
  · unfold SL.nxt; rw [s.node_setNext_ne i t h]
  · by_cases hb : b = a
    · subst hb
      by_cases hlt : b < s.heap.length
      · unfold SL.nxt
        rw [s.node_setNext_self i t hlt]
        simp only [List.getD_eq_getElem?_getD, List.getElem?_set_ne (fun he => h he.symm)]
      · unfold SL.nxt SL.setNext SL.node
        rw [List.set_eq_of_length_le (by omega)]
    · unfold SL.nxt; rw [s.node_setNext_ne i t hb]

theorem SL.nxt_setNext_self (s : SL) {a i : Nat} (t : Option Nat)
    (ha : a < s.heap.length) (hi : i < (s.node a).next.length) :
    (s.setNext a i t).nxt a i = t := by
  unfold SL.nxt
  rw [s.node_setNext_self i t ha]
  simp only [List.getD_eq_getElem?_getD, List.getElem?_set_self (by simpa using hi)]
  rfl

theorem SL.node_setNext_key (s : SL) (a b i : Nat) (t : Option Nat) :
    ((s.setNext a i t).node b).key = (s.node b).key := by
  by_cases h : b = a
  · subst h
    by_cases hlt : b < s.heap.length
    · rw [s.node_setNext_self i t hlt]
    · unfold SL.setNext SL.node
      rw [List.set_eq_of_length_le (by omega)]
  · rw [s.node_setNext_ne i t h]

theorem SL.node_setNext_value (s : SL) (a b i : Nat) (t : Option Nat) :
    ((s.setNext a i t).node b).value = (s.node b).value := by
  by_cases h : b = a
  · subst h
    by_cases hlt : b < s.heap.length
    · rw [s.node_setNext_self i t hlt]
    · unfold SL.setNext SL.node
      rw [List.set_eq_of_length_le (by omega)]
  · rw [s.node_setNext_ne i t h]

theorem SL.node_setNext_next_length (s : SL) (a b i : Nat) (t : Option Nat) :
    ((s.setNext a i t).node b).next.length = (s.node b).next.length := by
  by_cases h : b = a
  · subst h
    by_cases hlt : b < s.heap.length
    · rw [s.node_setNext_self i t hlt]; simp
    · unfold SL.setNext SL.node
      rw [List.set_eq_of_length_le (by omega)]
  · rw [s.node_setNext_ne i t h]

theorem SL.setValue_maxLevel (s : SL) (a : Nat) (v : Int) :
    (s.setValue a v).maxLevel_ = s.maxLevel_ := rfl

theorem SL.setValue_heap_length (s : SL) (a : Nat) (v : Int) :
    (s.setValue a v).heap.length = s.heap.length := by
  unfold SL.setValue; simp

theorem SL.node_setValue_ne (s : SL) {a b : Nat} (v : Int) (h : b ≠ a) :
    (s.setValue a v).node b = s.node b := by
  unfold SL.setValue SL.node
  simp only [List.getD_eq_getElem?_getD, List.getElem?_set_ne (fun he => h he.symm)]

theorem SL.node_setValue_self (s : SL) {a : Nat} (v : Int) (ha : a < s.heap.length) :
    (s.setValue a v).node a = { s.node a with value := v } := by
  unfold SL.setValue SL.node
  simp only [List.getD_eq_getElem?_getD, List.getElem?_set_self ha]
  rw [List.getElem?_eq_getElem ha]
  rfl

theorem SL.node_setValue_key (s : SL) (a b : Nat) (v : Int) :
    ((s.setValue a v).node b).key = (s.node b).key := by
  by_cases h : b = a
  · subst h
    by_cases hlt : b < s.heap.length
    · rw [s.node_setValue_self v hlt]
    · unfold SL.setValue SL.node
      rw [List.set_eq_of_length_le (by omega)]
  · rw [s.node_setValue_ne v h]

theorem SL.node_setValue_next (s : SL) (a b : Nat) (v : Int) :
    ((s.setValue a v).node b).next = (s.node b).next := by
  by_cases h : b = a
  · subst h
    by_cases hlt : b < s.heap.length
    · rw [s.node_setValue_self v hlt]
    · unfold SL.setValue SL.node
      rw [List.set_eq_of_length_le (by omega)]
  · rw [s.node_setValue_ne v h]

theorem SL.nxt_setValue (s : SL) (a b j : Nat) (v : Int) :
    (s.setValue a v).nxt b j = s.nxt b j := by
  unfold SL.nxt
  rw [s.node_setValue_next a b v]

/-- Appending a fresh node to the heap: old nodes unchanged. -/
theorem SL.node_append (s : SL) (ml : Nat) (n : Node) {a : Nat} (ha : a < s.heap.length) :
    (SL.mk ml (s.heap ++ [n])).node a = s.node a := by
  unfold SL.node
  simp only [List.getD_eq_getElem?_getD, List.getElem?_append_left ha]

theorem SL.node_append_new (s : SL) (ml : Nat) (n : Node) :
    (SL.mk ml (s.heap ++ [n])).node s.heap.length = n := by
  unfold SL.node
  simp only [List.getD_eq_getElem?_getD, List.getElem?_concat_length]
  rfl

theorem SL.nxt_append (s : SL) (ml : Nat) (n : Node) {a : Nat} (ha : a < s.heap.length)
    (i : Nat) : (SL.mk ml (s.heap ++ [n])).nxt a i = s.nxt a i := by
  unfold SL.nxt
  rw [s.node_append ml n ha]

/-! ## Chain lemmas -/

theorem chainIs_unique {s : SL} {i : Nat} :
    ∀ {a : Nat} {l1 l2 : List Nat}, chainIs s i a l1 → chainIs s i a l2 → l1 = l2
  | _, [], [], _, _ => rfl
  | _, [], _ :: _, h1, h2 => by
      unfold chainIs at h1 h2
      rw [h1] at h2
      exact absurd h2.1 (by simp)
  | _, _ :: _, [], h1, h2 => by
      unfold chainIs at h1 h2
      rw [h2] at h1
      exact absurd h1.1 (by simp)
  | a, b :: l1, c :: l2, h1, h2 => by
      unfold chainIs at h1 h2
      obtain ⟨hb, h1'⟩ := h1
      obtain ⟨hc, h2'⟩ := h2
      rw [hb] at hc
      obtain rfl : b = c := by injection hc
      rw [chainIs_unique h1' h2']

theorem chainF_of_chainIs {s : SL} {i : Nat} :
    ∀ {a : Nat} {l : List Nat} {f : Nat}, chainIs s i a l → l.length ≤ f →
      chainF s i a f = l
  | _, [], 0, _, _ => rfl
  | _, [], f + 1, h, _ => by unfold chainIs at h; unfold chainF; rw [h]
  | _, b :: l, f + 1, h, hf => by
      unfold chainIs at h
      unfold chainF
      rw [h.1]
      simp only [List.cons.injEq, true_and]
      exact chainF_of_chainIs h.2 (by simpa using hf)

theorem chainIs_congr {s1 s2 : SL} {i : Nat} (hn : ∀ b, s2.nxt b i = s1.nxt b i) :
    ∀ {a : Nat} {l : List Nat}, chainIs s2 i a l ↔ chainIs s1 i a l
  | a, [] => by unfold chainIs; rw [hn a]
  | a, b :: l => by
      unfold chainIs
      rw [hn a]
      exact and_congr_right fun _ => chainIs_congr hn

/-- Writing a link at another level does not disturb level-`i` chains. -/
theorem chainIs_setNext_other {s : SL} {b i j : Nat} {t : Option Nat} (hij : j ≠ i)
    {a : Nat} {l : List Nat} : chainIs (s.setNext b j t) i a l ↔ chainIs s i a l :=
  chainIs_congr (fun c => @SL.nxt_setNext_ne s b c j i t (Or.inr (Ne.symm hij)))

/-- Writing a link of a node not on the chain does not disturb it. -/
theorem chainIs_setNext_notMem {s : SL} {b i : Nat} {t : Option Nat} :
    ∀ {a : Nat} {l : List Nat}, b ∉ a :: l →
      (chainIs (s.setNext b i t) i a l ↔ chainIs s i a l)
  | a, [], hb => by
      unfold chainIs
      rw [s.nxt_setNext_ne t (Or.inl (by simp at hb; omega))]
  | a, c :: l, hb => by
      unfold chainIs
      rw [s.nxt_setNext_ne t (Or.inl (by simp at hb; omega))]
      refine and_congr_right fun _ => chainIs_setNext_notMem ?_
      simp only [List.mem_cons] at hb ⊢
      tauto

theorem chainIs_setValue {s : SL} {b : Nat} {v : Int} {i : Nat} {a : Nat} {l : List Nat} :
    chainIs (s.setValue b v) i a l ↔ chainIs s i a l :=
  chainIs_congr (fun c => s.nxt_setValue b c i v)

/-- Appending a node (whose links are null) to the heap changes no link. -/
theorem SL.nxt_append_all (s : SL) (ml lvl : Nat) (k v : Int) (a i : Nat) :
    (SL.mk ml (s.heap ++ [createNode lvl k v])).nxt a i = s.nxt a i := by
  by_cases ha : a < s.heap.length
  · exact s.nxt_append ml _ ha i
  · by_cases he : a = s.heap.length
    · subst he
      unfold SL.nxt
      rw [s.node_append_new ml _]
      have h2 : s.node s.heap.length = createNode 0 0 0 := by
        unfold SL.node
        exact List.getD_eq_default _ _ (le_refl _)
      rw [h2]
      unfold createNode
      rcases Nat.lt_or_ge i lvl with hi | hi
      · simp [List.getD_eq_getElem?_getD, List.getElem?_replicate, hi]
      · rw [List.getD_eq_default _ _ (by simpa using hi),
          List.getD_eq_default _ _ (by simp)]
    · unfold SL.nxt SL.node
      have h1 : s.heap.length ≤ a := by omega
      have h2 : (s.heap ++ [createNode lvl k v]).length ≤ a := by
        simp only [List.length_append, List.length_cons, List.length_nil]
        omega
      simp only [List.getD_eq_getElem?_getD, List.getElem?_eq_none h2,
        List.getElem?_eq_none h1]

theorem chainIs_append {s : SL} {ml lvl : Nat} {k v : Int} {i : Nat} {a : Nat} {l : List Nat} :
    chainIs (SL.mk ml (s.heap ++ [createNode lvl k v])) i a l ↔ chainIs s i a l :=
  chainIs_congr (fun b => s.nxt_append_all ml lvl k v b i)

theorem chainIs_split {s : SL} {i : Nat} :
    ∀ {a : Nat} {l : List Nat} {b : Nat}, chainIs s i a l → b ∈ a :: l →
      ∃ pre suf, a :: l = pre ++ b :: suf ∧ chainIs s i b suf
  | a, l, b, h, hb => by
      rcases List.mem_cons.1 hb with rfl | hb'
      · exact ⟨[], l, rfl, h⟩
      · match l, h with
        | c :: l', h =>
          obtain ⟨pre, suf, heq, hc⟩ := chainIs_split h.2 (List.mem_cons.2
            (by rcases List.mem_cons.1 hb' with rfl | h'; exact Or.inl rfl; exact Or.inr h'))
          exact ⟨a :: pre, suf, by rw [List.cons_append, heq], hc⟩

/-- A duplicate-free list of naturals all below `n` has length at most `n`. -/
theorem nodup_bounded_length {l : List Nat} {n : Nat} (hnd : l.Nodup)
    (hlt : ∀ a ∈ l, a < n) : l.length ≤ n := by
  classical
  have hcard : l.toFinset.card = l.length := List.toFinset_card_of_nodup hnd
  have hsub : l.toFinset ⊆ Finset.range n := by
    intro a ha
    simp only [List.mem_toFinset] at ha
    simpa using hlt a ha
  have := Finset.card_le_card hsub
  rw [hcard, Finset.card_range] at this
  exact this

theorem sChain_eq_of_chainIs {s : SL} {i : Nat} {l : List Nat} (h : chainIs s i 0 l)
    (hf : l.length ≤ s.heap.length) : sChain s i = l :=
  chainF_of_chainIs h hf

/-- Levels at or above the head's allocated height have empty chains. -/
theorem sChain_of_height_le {s : SL} {i : Nat} (hi : (s.node 0).next.length ≤ i) :
    sChain s i = [] := by
  have hn : s.nxt 0 i = none := by
    unfold SL.nxt
    exact List.getD_eq_default _ _ hi
  unfold sChain
  cases hf : s.heap.length with
  | zero => rfl
  | succ f => unfold chainF; rw [hn]

/-! ## The advancing loop -/

theorem advW_split (s : SL) (P : Node → Prop) [DecidablePred P] (i : Nat) :
    ∀ {p : Nat} {suf : List Nat} {f : Nat}, chainIs s i p suf → suf.length ≤ f →
      advW s P i p f = (p :: suf.takeWhile (fun a => decide (P (s.node a)))).getLast
          (List.cons_ne_nil _ _) ∧
        chainIs s i (advW s P i p f)
          (suf.dropWhile (fun a => decide (P (s.node a))))
  | p, [], f, h, hf => by
      unfold chainIs at h
      have hadv : advW s P i p f = p := by
        cases f with
        | zero => rfl
        | succ f => unfold advW; rw [h]
      rw [hadv]
      exact ⟨by simp, h⟩
  | p, b :: t, f, h, hf => by
      unfold chainIs at h
      match f, hf with
      | f + 1, hf =>
        by_cases hP : P (s.node b)
        · have hd : decide (P (s.node b)) = true := decide_eq_true hP
          have hadv : advW s P i p (f + 1) = advW s P i b f := by
            conv_lhs => unfold advW
            rw [h.1]
            simp [hP]
          obtain ⟨h1, h2⟩ := advW_split s P i h.2 (by simpa using hf)
          rw [hadv, List.takeWhile_cons, List.dropWhile_cons, hd]
          simp only [if_true]
          refine ⟨?_, h2⟩
          rw [h1, List.getLast_cons (List.cons_ne_nil _ _)]
        · have hd : decide (P (s.node b)) = false := decide_eq_false hP
          have hadv : advW s P i p (f + 1) = p := by
            conv_lhs => unfold advW
            rw [h.1]
            simp [hP]
          rw [hadv, List.takeWhile_cons, List.dropWhile_cons, hd]
          simp only [Bool.false_eq_true, if_false]
          refine ⟨by simp, ?_⟩
          unfold chainIs
          exact h

/-! ## Sublist positioning kit -/

theorem tail_sublist_tail {α : Type} {l r : List α} (h : List.Sublist l r) :
    List.Sublist l.tail r.tail := by
  cases h with
  | slnil => simp
  | cons a h => exact List.Sublist.trans (List.tail_sublist _) h
  | cons₂ a h => exact h

theorem sublist_cons_strip {α : Type} {x c : α} {l r : List α}
    (h : List.Sublist (x :: l) (c :: r)) (hne : x ≠ c) : List.Sublist (x :: l) r := by
  cases h with
  | cons _ h => exact h
  | cons₂ _ h => exact absurd rfl hne

/-- A sublist whose head avoids a prefix threads entirely through the suffix. -/
theorem sublist_drop_front {α : Type} {x : α} {l L2 : List α} :
    ∀ {L1 : List α}, List.Sublist (x :: l) (L1 ++ L2) → x ∉ L1 →
      List.Sublist (x :: l) L2
  | [], h, _ => h
  | c :: L1, h, hx => by
      have hne : x ≠ c := by simp only [List.mem_cons] at hx; tauto
      exact sublist_drop_front (sublist_cons_strip h hne)
        (by simp only [List.mem_cons] at hx; tauto)

/-- Pinning a sublist behind the unique occurrence of `x`: the part after `x`
in the sublist embeds after `x` in the larger list. -/
theorem sublist_pin_suffix {α : Type} {x : α} {l L2 : List α} {L1 : List α}
    (h : List.Sublist (x :: l) (L1 ++ x :: L2)) (hx : x ∉ L1) : List.Sublist l L2 := by
  have h2 : List.Sublist (x :: l) (x :: L2) := sublist_drop_front h hx
  cases h2 with
  | cons _ h2 => exact List.Sublist.trans (List.sublist_cons_self _ _) h2
  | cons₂ _ h2 => exact h2

/-- Pinning a sublist before the unique occurrence of `x`: a sublist ending in
`x` embeds into the larger list's part up to `x`. -/
theorem sublist_pin_front {α : Type} {x : α} :
    ∀ {L1 l L2 : List α},
      List.Sublist (l ++ [x]) (L1 ++ x :: L2) → x ∉ L1 → x ∉ L2 →
      List.Sublist (l ++ [x]) (L1 ++ [x])
  | [], l, L2, h, _, h2 => by
      match l with
      | [] => simp
      | y :: l1 =>
        exfalso
        by_cases hy : y = x
        · subst hy
          cases h with
          | cons _ h => exact h2 (h.mem (by simp))
          | cons₂ _ h => exact h2 (h.mem (by simp))
        · have hstrip := sublist_cons_strip (by simpa using h) hy
          exact h2 (hstrip.mem (by simp))
  | c :: L1, l, L2, h, h1, h2 => by
      have hxc : x ≠ c := by simp only [List.mem_cons] at h1; tauto
      have h1' : x ∉ L1 := by simp only [List.mem_cons] at h1; tauto
      match l with
      | [] =>
        simp only [List.nil_append]
        have hr : List.Sublist [x] (L1 ++ [x]) := List.sublist_append_right L1 [x]
        exact List.Sublist.trans hr (List.sublist_cons_self c (L1 ++ [x]))
      | y :: l1 =>
        rw [List.cons_append, List.cons_append] at h
        cases h with
        | cons _ h =>
          have h' : List.Sublist ((y :: l1) ++ [x]) (L1 ++ x :: L2) := by simpa using h
          have hrec := List.Sublist.cons c (sublist_pin_front h' h1' h2)
          simpa using hrec
        | cons₂ _ h =>
          have h' : List.Sublist (l1 ++ [x]) (L1 ++ x :: L2) := h
          have hrec := List.Sublist.cons₂ c (sublist_pin_front h' h1' h2)
          simpa using hrec

/-! ## Well-formedness utilities -/

theorem WF.chain_all {s : SL} (hwf : WF s) (i : Nat) : chainIs s i 0 (sChain s i) := by
  by_cases hi : i < MAX_LEVEL
  · exact hwf.hch i hi
  · have h1 : sChain s i = [] := sChain_of_height_le (by rw [hwf.hht]; omega)
    rw [h1]
    unfold chainIs SL.nxt
    exact List.getD_eq_default _ _ (by rw [hwf.hht]; omega)

theorem WF.sub' {s : SL} (hwf : WF s) (i : Nat) :
    List.Sublist (sChain s (i + 1)) (sChain s i) := by
  by_cases hi : i + 1 < MAX_LEVEL
  · exact hwf.hsub i hi
  · rw [sChain_of_height_le (by rw [hwf.hht]; omega)]
    exact List.nil_sublist _

theorem WF.mem_zero {s : SL} (hwf : WF s) :
    ∀ i, ∀ a ∈ sChain s i, a ∈ sChain s 0 := by
  intro i
  induction i with
  | zero => intro a ha; exact ha
  | succ i ih => intro a ha; exact ih a ((hwf.sub' i).mem ha)

theorem WF.valid0 {s : SL} (hwf : WF s) {i : Nat} {a : Nat} (ha : a ∈ sChain s i) :
    0 < a ∧ a < s.heap.length := by
  have := hwf.mem_zero i a ha
  exact hwf.hvalid 0 (by unfold MAX_LEVEL; omega) a this

theorem WF.nodup0 {s : SL} (hwf : WF s) (i : Nat) : (0 :: sChain s i).Nodup := by
  by_cases hi : i < MAX_LEVEL
  · refine List.Nodup.cons ?_ (hwf.hnd i hi)
    intro h0
    exact absurd (hwf.valid0 h0).1 (by omega)
  · rw [sChain_of_height_le (by rw [hwf.hht]; omega)]
    simp

theorem WF.len_le {s : SL} (hwf : WF s) (i : Nat) :
    (sChain s i).length ≤ s.heap.length := by
  by_cases hi : i < MAX_LEVEL
  · exact nodup_bounded_length (hwf.hnd i hi) (fun a ha => (hwf.valid0 ha).2)
  · rw [sChain_of_height_le (by rw [hwf.hht]; omega)]
    simp

/-- Chains are weakly key-sorted with the head prepended. -/
theorem WF.sorted0 {s : SL} (hwf : WF s) (i : Nat) :
    List.Pairwise (fun a b => (s.node a).key ≤ (s.node b).key) (0 :: sChain s i) := by
  by_cases hi : i < MAX_LEVEL
  · refine List.pairwise_cons.2 ⟨?_, hwf.hsort i hi⟩
    intro a ha
    rw [hwf.hkey]
    exact hwf.hkmin a (hwf.mem_zero i a ha)
  · rw [sChain_of_height_le (by rw [hwf.hht]; omega)]
    simp

theorem WF.sorted_chain {s : SL} (hwf : WF s) (i : Nat) :
    List.Pairwise (fun a b => (s.node a).key ≤ (s.node b).key) (sChain s i) := by
  by_cases hi : i < MAX_LEVEL
  · exact hwf.hsort i hi
  · rw [sChain_of_height_le (by rw [hwf.hht]; omega)]
    simp

/-! ## `searchNode` characterisation -/

/-- Where the `searchNode` descent ends: a position in the level-0 chain whose
key is at most `K` (or the head), followed by a possibly-empty chain whose
first node's key exceeds `K`. -/
def searchOutcome (s : SL) (K : Int) (q : Nat) : Prop :=
  ∃ pre dw, 0 :: sChain s 0 = pre ++ q :: dw ∧ chainIs s 0 q dw ∧
    (q = 0 ∨ (s.node q).key ≤ K) ∧
    (dw = [] ∨ ∃ b rest, dw = b :: rest ∧ K < (s.node b).key)

theorem descSearch_outcome {s : SL} {K : Int} (hwf : WF s) :
    ∀ (k p : Nat), p ∈ 0 :: sChain s k → (p = 0 ∨ (s.node p).key ≤ K) →
      (1 ≤ k → searchOutcome s K (descSearch s K p k)) ∧
      descSearch s K p k ∈ 0 :: sChain s 0 ∧
      (descSearch s K p k = 0 ∨ (s.node (descSearch s K p k)).key ≤ K) ∧
      (k = 0 → descSearch s K p k = p) := by
  intro k
  induction k with
  | zero =>
    intro p hp hP
    exact ⟨by omega, hp, hP, fun _ => rfl⟩
  | succ k ih =>
    intro p hp hP
    have hpk : p ∈ 0 :: sChain s k := by
      rcases List.mem_cons.1 hp with rfl | hp'
      · exact List.mem_cons_self _ _
      · exact List.mem_cons_of_mem _ ((hwf.sub' k).mem hp')
    obtain ⟨pre, suf, hsplit, hchain⟩ := chainIs_split (hwf.chain_all k) hpk
    have hlen : suf.length ≤ s.heap.length := by
      have h1 : (0 :: sChain s k).length = pre.length + (suf.length + 1) := by
        rw [hsplit]; simp
      have h2 := hwf.len_le k
      simp only [List.length_cons] at h1
      omega
    obtain ⟨hgl, hdwc⟩ := advW_split s (searchCond K) k hchain hlen
    have hstep : descSearch s K p (k + 1) =
        descSearch s K (advW s (searchCond K) k p s.heap.length) k := rfl
    have hm : advW s (searchCond K) k p s.heap.length ∈
        p :: suf.takeWhile (fun a => decide (searchCond K (s.node a))) := by
      rw [hgl]; exact List.getLast_mem _
    have hp1mem : advW s (searchCond K) k p s.heap.length ∈ 0 :: sChain s k := by
      rcases List.mem_cons.1 hm with he | hm'
      · rw [he]; exact hpk
      · have h1 := (List.takeWhile_sublist _).mem hm'
        rw [hsplit]
        exact List.mem_append_right _ (List.mem_cons_of_mem _ h1)
    have hp1P : advW s (searchCond K) k p s.heap.length = 0 ∨
        (s.node (advW s (searchCond K) k p s.heap.length)).key ≤ K := by
      rcases List.mem_cons.1 hm with he | hm'
      · rw [he]; exact hP
      · right
        have := List.mem_takeWhile_imp hm'
        rwa [decide_eq_true_eq, searchCond_iff] at this
    obtain ⟨ih1, ih2, ih3, ih4⟩ := ih (advW s (searchCond K) k p s.heap.length) hp1mem hp1P
    rw [hstep]
    refine ⟨fun _ => ?_, ih2, ih3, by omega⟩
    rcases Nat.eq_zero_or_pos k with rfl | hk
    · -- the advance above happened at level 0; assemble the outcome directly
      rw [ih4 rfl]
      refine ⟨pre ++ (p :: suf.takeWhile
          (fun a => decide (searchCond K (s.node a)))).dropLast,
        suf.dropWhile (fun a => decide (searchCond K (s.node a))), ?_, hdwc, hp1P, ?_⟩
      · have hdecomp : (p :: suf.takeWhile
            (fun a => decide (searchCond K (s.node a)))).dropLast
              ++ [advW s (searchCond K) 0 p s.heap.length] =
            p :: suf.takeWhile (fun a => decide (searchCond K (s.node a))) := by
          rw [hgl]
          exact List.dropLast_append_getLast _
        calc 0 :: sChain s 0 = pre ++ p :: suf := hsplit
          _ = pre ++ ((p :: suf.takeWhile (fun a => decide (searchCond K (s.node a))))
              ++ suf.dropWhile (fun a => decide (searchCond K (s.node a)))) := by
            rw [List.cons_append, List.takeWhile_append_dropWhile]
          _ = pre ++ (((p :: suf.takeWhile
                (fun a => decide (searchCond K (s.node a)))).dropLast
              ++ [advW s (searchCond K) 0 p s.heap.length])
              ++ suf.dropWhile (fun a => decide (searchCond K (s.node a)))) := by
            rw [hdecomp]
          _ = (pre ++ (p :: suf.takeWhile
                (fun a => decide (searchCond K (s.node a)))).dropLast)
              ++ advW s (searchCond K) 0 p s.heap.length ::
                suf.dropWhile (fun a => decide (searchCond K (s.node a))) := by
            simp
      · rcases hdwe : suf.dropWhile (fun a => decide (searchCond K (s.node a)))
          with _ | ⟨b, rest⟩
        · exact Or.inl rfl
        · refine Or.inr ⟨b, rest, rfl, ?_⟩
          have hhead := List.head?_dropWhile_not
            (fun a => decide (searchCond K (s.node a))) suf
          rw [hdwe] at hhead
          simp only [List.head?_cons, Option.mem_def, Option.some.injEq] at hhead
          have hb := of_decide_eq_false hhead
          rw [searchCond_iff] at hb
          omega
    · exact ih1 hk

theorem searchNode_outcome {s : SL} (hwf : WF s) (K : Int) :
    searchOutcome s K (descSearch s K 0 s.maxLevel_) := by
  rcases Nat.eq_zero_or_pos s.maxLevel_ with hml | hml
  · have hch0 : sChain s 0 = [] := hwf.hhigh 0 (by unfold MAX_LEVEL; omega) (by omega)
    have hres : descSearch s K 0 s.maxLevel_ = 0 := by rw [hml]; rfl
    rw [hres]
    refine ⟨[], [], by rw [hch0]; rfl, ?_, Or.inl rfl, Or.inl rfl⟩
    have hc := hwf.chain_all 0
    rwa [hch0] at hc
  · have h0 : (0 : Nat) ∈ 0 :: sChain s s.maxLevel_ := List.mem_cons_self _ _
    exact ((descSearch_outcome hwf s.maxLevel_ 0 h0 (Or.inl rfl)).1 hml)

/-- The `searchNode` cursor lands on a stored node with key `K` whenever one
exists; with no such node it lands strictly below `K` (on the head if `K` is
minimal). -/
theorem searchNode_char {s : SL} (hwf : WF s) (K : Int) :
    (hasKey s K → ∃ q, s.searchNode K = some q ∧ q ∈ sChain s 0 ∧ (s.node q).key = K) ∧
    (¬ hasKey s K → K = INT_MIN → s.searchNode K = some 0) ∧
    (¬ hasKey s K → K ≠ INT_MIN → s.searchNode K = none) := by
  obtain ⟨pre, dw, hsplit, hchain, hqP, hdw⟩ := searchNode_outcome hwf K
  set q := descSearch s K 0 s.maxLevel_ with hq
  have hnd0 : (0 :: sChain s 0).Nodup := hwf.nodup0 0
  have hsort : List.Pairwise (fun a b => (s.node a).key ≤ (s.node b).key)
      (0 :: sChain s 0) := hwf.sorted0 0
  have hndsplit : (pre ++ q :: dw).Nodup := by rw [← hsplit]; exact hnd0
  have hsortsplit : List.Pairwise (fun a b => (s.node a).key ≤ (s.node b).key)
      (pre ++ q :: dw) := by rw [← hsplit]; exact hsort
  have hpre_le : ∀ a ∈ pre, (s.node a).key ≤ (s.node q).key := by
    intro a ha
    exact ((List.pairwise_append.1 hsortsplit).2.2) a ha q (List.mem_cons_self _ _)
  have hdw_gt : ∀ a ∈ dw, K < (s.node a).key := by
    intro a ha
    rcases hdw with rfl | ⟨b, rest, rfl, hb⟩
    · cases ha
    · rcases List.mem_cons.1 ha with rfl | ha'
      · exact hb
      · have hdwsort : List.Pairwise (fun a b => (s.node a).key ≤ (s.node b).key)
            (b :: rest) :=
          (List.pairwise_append.1 hsortsplit).2.1.sublist
            (List.sublist_cons_self q (b :: rest))
        have := (List.pairwise_cons.1 hdwsort).1 a ha'
        omega
  have hzero_not : (0 : Nat) ∉ sChain s 0 := (List.nodup_cons.1 hnd0).1
  have hpre_nil : q = 0 → pre = [] ∧ sChain s 0 = dw := by
    intro h0
    rw [h0] at hsplit
    rcases pre with _ | ⟨c, pre'⟩
    · refine ⟨rfl, ?_⟩
      rw [List.nil_append, List.cons.injEq] at hsplit
      exact hsplit.2
    · exfalso
      rw [List.cons_append, List.cons.injEq] at hsplit
      obtain ⟨hc, hrest⟩ := hsplit
      apply hzero_not
      rw [hrest]
      simp
  have hqchain : q ≠ 0 → q ∈ sChain s 0 := by
    intro hne
    have hqmem : q ∈ 0 :: sChain s 0 := by
      rw [hsplit]
      exact List.mem_append_right _ (List.mem_cons_self _ _)
    rcases List.mem_cons.1 hqmem with h0 | h1
    · exact absurd h0 hne
    · exact h1
  have hkeyq : hasKey s K → (s.node q).key = K ∧ q ∈ sChain s 0 := by
    intro hk
    obtain ⟨a, ha, hak⟩ := hk
    by_cases h0 : q = 0
    · exfalso
      obtain ⟨-, hchaineq⟩ := hpre_nil h0
      have := hdw_gt a (hchaineq ▸ ha)
      omega
    · have hle : (s.node q).key ≤ K := by
        rcases hqP with h | h
        · exact absurd h h0
        · exact h
      refine ⟨?_, hqchain h0⟩
      by_contra hne
      have hlt : (s.node q).key < K := lt_of_le_of_ne hle hne
      have hamem : a ∈ pre ++ q :: dw := by
        rw [← hsplit]
        exact List.mem_cons_of_mem _ ha
      rcases List.mem_append.1 hamem with hp | hqd
      · have := hpre_le a hp
        omega
      · rcases List.mem_cons.1 hqd with rfl | hd
        · omega
        · have := hdw_gt a hd
          omega
  refine ⟨?_, ?_, ?_⟩
  · intro hk
    obtain ⟨hkeq, hmem⟩ := hkeyq hk
    refine ⟨q, ?_, hmem, hkeq⟩
    unfold SL.searchNode
    rw [← hq, if_pos hkeq]
  · intro hnk hmin
    have h0 : q = 0 := by
      by_contra hne
      have hle : (s.node q).key ≤ K := by
        rcases hqP with h | h
        · exact absurd h hne
        · exact h
      have hge : INT_MIN ≤ (s.node q).key := hwf.hkmin q (hqchain hne)
      exact hnk ⟨q, hqchain hne, by omega⟩
    unfold SL.searchNode
    rw [← hq, h0, if_pos (by rw [hwf.hkey, hmin])]
  · intro hnk hmin
    unfold SL.searchNode
    rw [← hq, if_neg ?_]
    by_cases h0 : q = 0
    · rw [h0, hwf.hkey]
      exact fun h => hmin h.symm
    · intro hkeq
      exact hnk ⟨q, hqchain h0, hkeq⟩

/-! ## Congruence of traversal under value updates -/

theorem advW_congr {s1 s2 : SL} {P1 P2 : Node → Prop} [DecidablePred P1] [DecidablePred P2]
    {i : Nat} (hn : ∀ a, s2.nxt a i = s1.nxt a i)
    (hP : ∀ a, P2 (s2.node a) ↔ P1 (s1.node a)) :
    ∀ (f p : Nat), advW s2 P2 i p f = advW s1 P1 i p f
  | 0, _ => rfl
  | f + 1, p => by
      unfold advW
      rw [hn p]
      cases h : s1.nxt p i with
      | none => rfl
      | some q =>
        show (if P2 (s2.node q) then advW s2 P2 i q f else p) =
          (if P1 (s1.node q) then advW s1 P1 i q f else p)
        by_cases hq : P1 (s1.node q)
        · rw [if_pos hq, if_pos ((hP q).2 hq)]
          exact advW_congr hn hP f q
        · rw [if_neg hq, if_neg (fun hc => hq ((hP q).1 hc))]

theorem descSearch_congr {s1 s2 : SL} {K : Int}
    (hn : ∀ a i, s2.nxt a i = s1.nxt a i) (hk : ∀ a, (s2.node a).key = (s1.node a).key)
    (hl : s2.heap.length = s1.heap.length) :
    ∀ (k p : Nat), descSearch s2 K p k = descSearch s1 K p k
  | 0, _ => rfl
  | k + 1, p => by
      show descSearch s2 K (advW s2 (searchCond K) k p s2.heap.length) k =
        descSearch s1 K (advW s1 (searchCond K) k p s1.heap.length) k
      rw [hl, show advW s2 (searchCond K) k p s1.heap.length =
          advW s1 (searchCond K) k p s1.heap.length from
        advW_congr (fun a => hn a k) (fun a => by simp only [searchCond_iff, hk a]) _ _]
      exact descSearch_congr hn hk hl k _

theorem searchNode_congr {s1 s2 : SL} {K : Int}
    (hn : ∀ a i, s2.nxt a i = s1.nxt a i) (hk : ∀ a, (s2.node a).key = (s1.node a).key)
    (hl : s2.heap.length = s1.heap.length) (hm : s2.maxLevel_ = s1.maxLevel_) :
    s2.searchNode K = s1.searchNode K := by
  unfold SL.searchNode
  rw [hm, descSearch_congr hn hk hl]
  simp only [hk]

theorem chainF_congr {s1 s2 : SL} (hn : ∀ a i, s2.nxt a i = s1.nxt a i) (i : Nat) :
    ∀ (f a : Nat), chainF s2 i a f = chainF s1 i a f
  | 0, _ => rfl
  | f + 1, a => by
      unfold chainF
      rw [hn a i]
      cases s1.nxt a i with
      | none => rfl
      | some b =>
        show b :: chainF s2 i b f = b :: chainF s1 i b f
        rw [chainF_congr hn i f b]

theorem sChain_setValue (s : SL) (b : Nat) (v : Int) (i : Nat) :
    sChain (s.setValue b v) i = sChain s i := by
  unfold sChain
  rw [s.setValue_heap_length b v]
  exact chainF_congr (fun a j => s.nxt_setValue b a j v) i _ _

theorem WF.setValue {s : SL} (hwf : WF s) (b : Nat) (v : Int) : WF (s.setValue b v) := by
  have hk := fun a => s.node_setValue_key b a v
  have hnx := fun a => s.node_setValue_next b a v
  have hc := sChain_setValue s b v
  refine ⟨?_, ?_, ?_, ?_, ?_, ?_, ?_, ?_, ?_, ?_, ?_, ?_⟩
  · rw [s.setValue_heap_length b v]; exact hwf.hlen
  · rw [hk 0]; exact hwf.hkey
  · rw [hnx 0]; exact hwf.hht
  · rw [s.setValue_maxLevel b v]; exact hwf.hml
  · intro i hi
    rw [hc i]
    exact chainIs_setValue.2 (hwf.hch i hi)
  · intro i hi a ha
    rw [hc i] at ha
    rw [s.setValue_heap_length b v]
    exact hwf.hvalid i hi a ha
  · intro i hi
    rw [hc i]
    exact hwf.hnd i hi
  · intro i hi hml
    rw [hc i]
    exact hwf.hhigh i hi hml
  · intro i hi
    rw [hc (i + 1), hc i]
    exact hwf.hsub i hi
  · intro i hi a ha
    rw [hc i] at ha
    rw [hnx a]
    exact hwf.hheight i hi a ha
  · intro i hi
    rw [hc i]
    refine (hwf.hsort i hi).imp ?_
    intro a c hab
    rw [hk a, hk c]
    exact hab
  · intro a ha
    rw [hc 0] at ha
    rw [hk a]
    exact hwf.hkmin a ha

/-! ## `update` and `search` characterisations -/

theorem update_char {s : SL} (hwf : WF s) (K V : Int) :
    ((∃ a ∈ 0 :: sChain s 0, (s.node a).key = K) →
      (s.update K V).1 = 0 ∧ (s.update K V).2.search K = V) ∧
    ((¬ ∃ a ∈ 0 :: sChain s 0, (s.node a).key = K) →
      (s.update K V).1 = 1 ∧ (s.update K V).2 = s) := by
  obtain ⟨hfound, hmin, hnone⟩ := searchNode_char hwf K
  have hsearch_after : ∀ q, s.searchNode K = some q → q < s.heap.length →
      (s.update K V).1 = 0 ∧ (s.update K V).2.search K = V := by
    intro q hsn hq
    have hupd : s.update K V = (0, s.setValue q V) := by
      unfold SL.update
      rw [hsn]
    rw [hupd]
    refine ⟨rfl, ?_⟩
    unfold SL.search
    have hsn2 : (s.setValue q V).searchNode K = some q := by
      rw [searchNode_congr (fun a j => s.nxt_setValue q a j V)
        (fun a => s.node_setValue_key q a V) (s.setValue_heap_length q V)
        (s.setValue_maxLevel q V)]
      exact hsn
    rw [hsn2]
    show ((s.setValue q V).node q).value = V
    rw [s.node_setValue_self V hq]
  constructor
  · rintro ⟨a, ha, hak⟩
    rcases List.mem_cons.1 ha with rfl | ha'
    · by_cases hk : hasKey s K
      · obtain ⟨q, hsn, hqm, hqk⟩ := hfound hk
        exact hsearch_after q hsn (hwf.valid0 hqm).2
      · have hm : K = INT_MIN := by rw [← hak, hwf.hkey]
        exact hsearch_after 0 (hmin hk hm) hwf.hlen
    · obtain ⟨q, hsn, hqm, hqk⟩ := hfound ⟨a, ha', hak⟩
      exact hsearch_after q hsn (hwf.valid0 hqm).2
  · intro hno
    have hnk : ¬ hasKey s K := by
      rintro ⟨a, ha, hak⟩
      exact hno ⟨a, List.mem_cons_of_mem _ ha, hak⟩
    have hne : K ≠ INT_MIN := by
      intro he
      exact hno ⟨0, List.mem_cons_self _ _, by rw [hwf.hkey, he]⟩
    have hsn := hnone hnk hne
    unfold SL.update
    rw [hsn]
    exact ⟨rfl, rfl⟩

theorem search_absent_char {s : SL} (hwf : WF s) (K : Int) (hnk : ¬ hasKey s K) :
    (K ≠ INT_MIN → s.search K = INT_MIN) ∧
    (K = INT_MIN → s.search K = (s.node 0).value ∧ s.searchNode K = some 0) := by
  obtain ⟨-, hmin, hnone⟩ := searchNode_char hwf K
  constructor
  · intro hne
    unfold SL.search
    rw [hnone hnk hne]
  · intro he
    have hsn := hmin hnk he
    unfold SL.search
    rw [hsn]
    exact ⟨rfl, rfl⟩

theorem search_hasKey_char {s : SL} (hwf : WF s) (K : Int) (hk : hasKey s K) :
    ∃ q ∈ sChain s 0, (s.node q).key = K ∧ s.search K = (s.node q).value := by
  obtain ⟨hfound, -, -⟩ := searchNode_char hwf K
  obtain ⟨q, hsn, hqm, hqk⟩ := hfound hk
  refine ⟨q, hqm, hqk, ?_⟩
  unfold SL.search
  rw [hsn]

/-! ## The fresh container -/

theorem getD_replicate_none : ∀ (n i : Nat),
    (List.replicate n (none : Option Nat)).getD i none = none
  | 0, _ => rfl
  | _ + 1, 0 => rfl
  | n + 1, i + 1 => getD_replicate_none n i

theorem fresh_nxt (i : Nat) : fresh.nxt 0 i = none := getD_replicate_none 32 i

theorem sChain_fresh (i : Nat) : sChain fresh i = [] := by
  show chainF fresh i 0 1 = []
  unfold chainF
  rw [fresh_nxt i]

theorem WF_fresh : WF fresh := by
  refine ⟨?_, rfl, ?_, ?_, ?_, ?_, ?_, ?_, ?_, ?_, ?_, ?_⟩
  · decide
  · decide
  · decide
  · intro i _
    rw [sChain_fresh]
    exact fresh_nxt i
  · intro i _ a ha
    rw [sChain_fresh] at ha
    cases ha
  · intro i _
    rw [sChain_fresh]
    exact List.nodup_nil
  · intro i _ _
    exact sChain_fresh i
  · intro i _
    rw [sChain_fresh, sChain_fresh]
  · intro i _ a ha
    rw [sChain_fresh] at ha
    cases ha
  · intro i _
    rw [sChain_fresh]
    exact List.Pairwise.nil
  · intro a ha
    rw [sChain_fresh] at ha
    cases ha

theorem LexSorted_fresh : LexSorted fresh := by
  intro i _
  rw [sChain_fresh]
  exact List.Pairwise.nil

/-! ## `remove` on an absent key is a pure no-op -/

/-- Elements of the suffix of a split `0 :: chain` are chain members (the head
address `0` occurs only at the very front). -/
theorem chain_of_suffix {s : SL} (hwf : WF s) {k : Nat} {pre suf : List Nat} {p : Nat}
    (hsplit : 0 :: sChain s k = pre ++ p :: suf) : ∀ a ∈ suf, a ∈ sChain s k := by
  intro a ha
  have hmem : a ∈ 0 :: sChain s k := by
    rw [hsplit]
    exact List.mem_append_right _ (List.mem_cons_of_mem _ ha)
  rcases List.mem_cons.1 hmem with rfl | h
  · exfalso
    have hnd := hwf.nodup0 k
    rw [hsplit] at hnd
    rcases pre with _ | ⟨c, pre'⟩
    · rw [List.nil_append] at hnd hsplit
      rw [List.cons.injEq] at hsplit
      obtain ⟨hp0, -⟩ := hsplit
      rw [← hp0] at hnd
      exact (List.nodup_cons.1 hnd).1 ha
    · rw [List.cons_append] at hnd hsplit
      rw [List.cons.injEq] at hsplit
      obtain ⟨hc0, -⟩ := hsplit
      rw [← hc0] at hnd
      refine (List.nodup_cons.1 hnd).1 ?_
      exact List.mem_append_right _ (List.mem_cons_of_mem _ ha)
  · exact h

/-- Likewise, the split point itself is the head or a chain member. -/
theorem chain_of_split_point {s : SL} {k : Nat} {pre suf : List Nat}
    {p : Nat} (hsplit : 0 :: sChain s k = pre ++ p :: suf) :
    p ∈ 0 :: sChain s k := by
  rw [hsplit]
  exact List.mem_append_right _ (List.mem_cons_self _ _)

theorem removeLoop_noop {s : SL} {K : Int} (hwf : WF s)
    (hno : ∀ a ∈ sChain s 0, (s.node a).key ≠ K) :
    ∀ (k p : Nat) (dn : Option Nat) (v : Int), p ∈ 0 :: sChain s k →
      removeLoop K s p dn v k = (s, dn, v) := by
  intro k
  induction k with
  | zero => intro p dn v _; rfl
  | succ k ih =>
    intro p dn v hp
    have hpk : p ∈ 0 :: sChain s k := by
      rcases List.mem_cons.1 hp with rfl | hp'
      · exact List.mem_cons_self _ _
      · exact List.mem_cons_of_mem _ ((hwf.sub' k).mem hp')
    obtain ⟨pre, suf, hsplit, hchain⟩ := chainIs_split (hwf.chain_all k) hpk
    have hlen : suf.length ≤ s.heap.length := by
      have h1 : (0 :: sChain s k).length = pre.length + (suf.length + 1) := by
        rw [hsplit]; simp
      have h2 := hwf.len_le k
      simp only [List.length_cons] at h1
      omega
    obtain ⟨hgl, hdwc⟩ := advW_split s (removeCond K) k hchain hlen
    have hm : advW s (removeCond K) k p s.heap.length ∈
        p :: suf.takeWhile (fun a => decide (removeCond K (s.node a))) := by
      rw [hgl]; exact List.getLast_mem _
    have hp1mem : advW s (removeCond K) k p s.heap.length ∈ 0 :: sChain s k := by
      rcases List.mem_cons.1 hm with he | hm'
      · rw [he]; exact hpk
      · have h1 := (List.takeWhile_sublist _).mem hm'
        rw [hsplit]
        exact List.mem_append_right _ (List.mem_cons_of_mem _ h1)
    have hstep : removeLoop K s p dn v (k + 1) =
        match s.nxt (advW s (removeCond K) k p s.heap.length) k with
        | some q =>
          if comparator_ (s.node q).key K = 0 then
            removeLoop K
              (s.setNext (advW s (removeCond K) k p s.heap.length) k (s.nxt q k))
              (advW s (removeCond K) k p s.heap.length) (some q) (s.node q).value k
          else
            removeLoop K s (advW s (removeCond K) k p s.heap.length) dn v k
        | none => removeLoop K s (advW s (removeCond K) k p s.heap.length) dn v k := rfl
    rw [hstep]
    cases hq : s.nxt (advW s (removeCond K) k p s.heap.length) k with
    | none => exact ih _ dn v hp1mem
    | some q =>
      have hqmem : q ∈ sChain s k := by
        rcases hdw : suf.dropWhile (fun a => decide (removeCond K (s.node a))) with
          _ | ⟨b, rest⟩ <;> rw [hdw] at hdwc
        · unfold chainIs at hdwc
          rw [hdwc] at hq
          cases hq
        · unfold chainIs at hdwc
          rw [hdwc.1] at hq
          obtain rfl : q = b := by injection hq with h; exact h.symm
          have hbsuf : q ∈ suf := by
            have hsb := List.dropWhile_sublist
              (fun a => decide (removeCond K (s.node a))) (l := suf)
            rw [hdw] at hsb
            exact hsb.mem (List.mem_cons_self _ _)
          exact chain_of_suffix hwf hsplit q hbsuf
      have hkne : (s.node q).key ≠ K := hno q (hwf.mem_zero k q hqmem)
      show (if comparator_ (s.node q).key K = 0 then
          removeLoop K
            (s.setNext (advW s (removeCond K) k p s.heap.length) k (s.nxt q k))
            (advW s (removeCond K) k p s.heap.length) (some q) (s.node q).value k
        else
          removeLoop K s (advW s (removeCond K) k p s.heap.length) dn v k) = (s, dn, v)
      rw [if_neg (fun hc => hkne (comparator_eq_zero_iff.1 hc))]
      exact ih _ dn v hp1mem

/-- `remove` on a key held by no stored node returns `-1` and leaves the
entire state (every node and every forward link) unchanged. -/
theorem remove_absent {s : SL} {K : Int} (hwf : WF s) (hno : ¬ hasKey s K) :
    s.remove K = (-1, s) := by
  have hno' : ∀ a ∈ sChain s 0, (s.node a).key ≠ K := by
    intro a ha hk
    exact hno ⟨a, ha, hk⟩
  have hloop := removeLoop_noop hwf hno' s.maxLevel_ 0 none (-1)
    (List.mem_cons_self _ _)
  unfold SL.remove
  rw [hloop]

/-! ## `randomLevel` -/

theorem fzb_ge (rd : Nat) : ∀ (f i : Nat), i ≤ fzb rd i f
  | 0, i => le_refl i
  | f + 1, i => by
      unfold fzb
      split
      · exact le_trans (Nat.le_succ i) (fzb_ge rd f (i + 1))
      · exact le_refl i

theorem and_two_pow_eq_zero_iff {rd i : Nat} :
    rd &&& 2 ^ i = 0 ↔ rd.testBit i = false := by
  constructor
  · intro h
    have := congrArg (fun x => x.testBit i) h
    simp only [Nat.testBit_and, Nat.testBit_two_pow_self, Nat.zero_testBit,
      Bool.and_true] at this
    exact this
  · intro h
    apply Nat.eq_of_testBit_eq
    intro j
    simp only [Nat.testBit_and, Nat.zero_testBit]
    by_cases hj : j = i
    · rw [hj, h]
      simp
    · rw [Nat.testBit_two_pow,
        decide_eq_false (fun he : i = j => hj he.symm)]
      simp

theorem fzb_succ (rd i f : Nat) :
    fzb rd i (f + 1) = if rd.testBit i then fzb rd (i + 1) f else i := rfl

theorem rlLoop_eq (rd level i : Nat) :
    rlLoop rd level i =
      if _h : i < level then
        (if rd &&& intShiftMask i = 0 then i + 1 else rlLoop rd level (i + 1))
      else level := by
  conv_lhs => unfold rlLoop

theorem rlLoop_spec (rd : Nat) :
    ∀ (c i : Nat), i + c = 32 → rlLoop rd 32 i = min (fzb rd i (65 - i) + 1) 32
  | 0, i, hi => by
      -- i = 32: the loop is exhausted and returns the level
      obtain rfl : i = 32 := by omega
      rw [rlLoop_eq, dif_neg (by omega)]
      have := fzb_ge rd (65 - 32) 32
      omega
  | c + 1, i, hi => by
      have hi32 : i < 32 := by omega
      rw [rlLoop_eq, dif_pos hi32]
      by_cases hlast : i = 31
      · -- bit 31: whatever the masked test yields, the result is 32, and the
        -- first zero bit is at least 31, so the claimed value is also 32
        subst hlast
        have hge := fzb_ge rd (65 - 31) 31
        split
        · omega
        · rw [rlLoop_spec rd 0 32 (by omega)]
          have := fzb_ge rd (65 - 32) 32
          omega
      · have hmask : intShiftMask i = 2 ^ i := if_pos (by omega)
        rw [hmask]
        have hfz : 65 - i = (65 - (i + 1)) + 1 := by omega
        by_cases hbit : rd.testBit i = true
        · rw [if_neg (by
            intro hz
            rw [and_two_pow_eq_zero_iff] at hz
            rw [hbit] at hz
            cases hz)]
          rw [rlLoop_spec rd c (i + 1) (by omega), hfz, fzb_succ, if_pos hbit]
        · rw [if_pos (and_two_pow_eq_zero_iff.2 (by simpa using hbit)), hfz,
            fzb_succ, if_neg hbit]
          omega

/-- `randomLevel` on any drawn word equals one plus the index of the word's
first zero bit, capped at `MAX_LEVEL = 32`. -/
theorem randomLevel_eq (rd : Nat) :
    randomLevel rd 32 = min (firstZeroBit rd + 1) 32 := by
  unfold randomLevel firstZeroBit
  exact rlLoop_spec rd 32 0 (by omega)

/-! ## Splicing a fresh node into a chain -/

theorem takeWhile_congr_mem {α : Type} {p q : α → Bool} :
    ∀ {l : List α}, (∀ a ∈ l, p a = q a) → l.takeWhile p = l.takeWhile q
  | [], _ => rfl
  | a :: l, h => by
      rw [List.takeWhile_cons, List.takeWhile_cons, h a (List.mem_cons_self _ _)]
      split
      · rw [takeWhile_congr_mem (fun x hx => h x (List.mem_cons_of_mem _ hx))]
      · rfl

theorem dropWhile_congr_mem {α : Type} {p q : α → Bool} :
    ∀ {l : List α}, (∀ a ∈ l, p a = q a) → l.dropWhile p = l.dropWhile q
  | [], _ => rfl
  | a :: l, h => by
      rw [List.dropWhile_cons, List.dropWhile_cons, h a (List.mem_cons_self _ _)]
      split
      · exact dropWhile_congr_mem (fun x hx => h x (List.mem_cons_of_mem _ hx))
      · rfl

/-- Splicing the fresh node `na` right after `p1` (the last element of
`a :: L1`): the chain `L1 ++ D` hanging off `a` becomes `L1 ++ na :: D`. -/
theorem chainIs_splice {t : SL} {i p1 na : Nat}
    (hp1len : p1 < t.heap.length) (hp1h : i < (t.node p1).next.length)
    (hnalen : na < t.heap.length) (hnah : i < (t.node na).next.length) :
    ∀ (a : Nat) (L1 : List Nat) {D : List Nat},
      chainIs t i a (L1 ++ D) →
      (a :: L1).getLast (List.cons_ne_nil _ _) = p1 →
      (a :: (L1 ++ D)).Nodup →
      na ∉ a :: (L1 ++ D) →
      chainIs ((t.setNext na i (t.nxt p1 i)).setNext p1 i (some na)) i a (L1 ++ na :: D)
  | a, [], D, hch, hlast, hnd, hna => by
      obtain rfl : p1 = a := by
        have h := hlast
        simp only [List.getLast_singleton] at h
        exact h.symm
      have hnap1 : na ≠ p1 := by
        intro he
        exact hna (he ▸ List.mem_cons_self _ _)
      rw [List.nil_append] at hch ⊢
      have h1len : p1 < (t.setNext na i (t.nxt p1 i)).heap.length := by
        rw [t.setNext_heap_length]
        exact hp1len
      have h1h : i < ((t.setNext na i (t.nxt p1 i)).node p1).next.length := by
        rw [t.node_setNext_next_length]
        exact hp1h
      show chainIs _ i p1 (na :: D)
      unfold chainIs
      constructor
      · exact SL.nxt_setNext_self _ (some na) h1len h1h
      · have hnxtna : ((t.setNext na i (t.nxt p1 i)).setNext p1 i (some na)).nxt na i =
            t.nxt p1 i := by
          rw [SL.nxt_setNext_ne _ (some na) (Or.inl hnap1),
            t.nxt_setNext_self (t.nxt p1 i) hnalen hnah]
        cases hD : D with
        | nil =>
          unfold chainIs
          rw [hnxtna]
          rw [hD] at hch
          exact hch
        | cons d D2 =>
          rw [hD] at hch hnd hna
          unfold chainIs at hch ⊢
          refine ⟨by rw [hnxtna]; exact hch.1, ?_⟩
          have hp1notin : p1 ∉ d :: D2 := (List.nodup_cons.1 hnd).1
          have hnanotin : na ∉ d :: D2 := by
            intro hm
            exact hna (List.mem_cons_of_mem _ hm)
          rw [chainIs_setNext_notMem (by
            intro hm
            rcases List.mem_cons.1 hm with he | hm2
            · exact hp1notin (by rw [← he]; exact List.mem_cons_self _ _)
            · exact hp1notin (List.mem_cons_of_mem _ hm2))]
          rw [chainIs_setNext_notMem (by
            intro hm
            rcases List.mem_cons.1 hm with he | hm2
            · exact hnanotin (by rw [← he]; exact List.mem_cons_self _ _)
            · exact hnanotin (List.mem_cons_of_mem _ hm2))]
          exact hch.2
  | a, b :: L1, D, hch, hlast, hnd, hna => by
      rw [List.cons_append] at hch hnd hna
      unfold chainIs at hch
      have hp1mem : p1 ∈ b :: L1 := by
        have := hlast
        rw [List.getLast_cons (List.cons_ne_nil _ _)] at this
        rw [← this]
        exact List.getLast_mem _
      have hanotin : a ∉ b :: (L1 ++ D) := (List.nodup_cons.1 hnd).1
      have hap1 : a ≠ p1 := by
        intro he
        refine hanotin ?_
        rcases List.mem_cons.1 hp1mem with h1 | h1
        · rw [he, h1]; exact List.mem_cons_self _ _
        · rw [he]; exact List.mem_cons_of_mem _ (List.mem_append_left _ h1)
      have hana : a ≠ na := by
        intro he
        exact hna (by rw [he]; exact List.mem_cons_self _ _)
      have hrec := chainIs_splice hp1len hp1h hnalen hnah b L1 hch.2
        (by rw [List.getLast_cons (List.cons_ne_nil _ _)] at hlast; exact hlast)
        (List.nodup_cons.1 hnd).2
        (fun hm => hna (List.mem_cons_of_mem _ hm))
      show chainIs _ i a ((b :: L1) ++ na :: D)
      rw [List.cons_append]
      unfold chainIs
      refine ⟨?_, hrec⟩
      rw [SL.nxt_setNext_ne _ (some na) (Or.inl (fun he => hap1 he)),
        SL.nxt_setNext_ne _ _ (Or.inl (fun he => hana he))]
      exact hch.1

/-! ## The `insert` loop invariant -/

/-- Facts about the state that every splice of `insertLoop` preserves. -/
def InsStatic (s1 t : SL) : Prop :=
  t.heap.length = s1.heap.length ∧ t.maxLevel_ = s1.maxLevel_ ∧
  ∀ a, (t.node a).key = (s1.node a).key ∧ (t.node a).value = (s1.node a).value ∧
    (t.node a).next.length = (s1.node a).next.length

theorem InsStatic.trans_setNext {s1 t : SL} (h : InsStatic s1 t) (b i : Nat)
    (o : Option Nat) : InsStatic s1 (t.setNext b i o) := by
  obtain ⟨h1, h2, h3⟩ := h
  refine ⟨by rw [t.setNext_heap_length]; exact h1, h2, fun a => ?_⟩
  rw [t.node_setNext_key b a i o, t.node_setNext_value b a i o,
    t.node_setNext_next_length b a i o]
  exact h3 a

/-- The per-level outcome of `insertLoop`: the original level-`j` chain (head
prepended) splits as `P ++ D` around the splice point; below the drawn level
the new node `na` is linked between the parts, at and above it the chain is
untouched. -/
def LvlData (s t : SL) (k v : Int) (lvl na j : Nat) (PD : List Nat × List Nat) : Prop :=
  0 :: sChain s j = PD.1 ++ PD.2 ∧ PD.1 ≠ [] ∧
  (∀ x, PD.1.getLast? = some x → x = 0 ∨ insertCond k v (s.node x)) ∧
  (PD.2 = [] ∨ ∃ b, PD.2.head? = some b ∧ ¬ insertCond k v (s.node b)) ∧
  (j < lvl → chainIs t j 0 (PD.1.tail ++ na :: PD.2)) ∧
  (lvl ≤ j → chainIs t j 0 (sChain s j))

/-- The heap state right after `insert` has allocated the new node. -/
def insHeap (s : SL) (k v : Int) (lvl : Nat) : SL :=
  ⟨max s.maxLevel_ lvl, s.heap ++ [createNode lvl k v]⟩

theorem insHeap_len (s : SL) (k v : Int) (lvl : Nat) :
    (insHeap s k v lvl).heap.length = s.heap.length + 1 := by
  unfold insHeap
  simp

theorem insHeap_node_old (s : SL) (k v : Int) (lvl : Nat) {a : Nat}
    (ha : a < s.heap.length) : (insHeap s k v lvl).node a = s.node a :=
  s.node_append _ _ ha

theorem insHeap_node_new (s : SL) (k v : Int) (lvl : Nat) :
    (insHeap s k v lvl).node s.heap.length = createNode lvl k v :=
  s.node_append_new _ _

theorem insHeap_nxt (s : SL) (k v : Int) (lvl : Nat) (a i : Nat) :
    (insHeap s k v lvl).nxt a i = s.nxt a i :=
  s.nxt_append_all _ lvl k v a i

theorem insertLoop_spec {s : SL} (hwf : WF s) (k v : Int) (lvl : Nat)
    (hlvl32 : lvl ≤ MAX_LEVEL) :
    ∀ (c : Nat) (t : SL) (p : Nat) (P D : List Nat), c ≤ MAX_LEVEL →
      InsStatic (insHeap s k v lvl) t →
      (∀ j, j < c → ∀ a, t.nxt a j = s.nxt a j) →
      0 :: sChain s c = P ++ D →
      P.getLast? = some p →
      (p = 0 ∨ insertCond k v (s.node p)) →
      (D = [] ∨ ∃ b, D.head? = some b ∧ ¬ insertCond k v (s.node b)) →
      ∃ F : Nat → List Nat × List Nat,
        F c = (P, D) ∧
        (∀ j, j < c →
          LvlData s (insertLoop k v lvl s.heap.length t p c) k v lvl s.heap.length j (F j)) ∧
        (∀ j, j < c →
          List.Sublist (F (j + 1)).1 (F j).1 ∧ List.Sublist (F (j + 1)).2 (F j).2) ∧
        InsStatic (insHeap s k v lvl) (insertLoop k v lvl s.heap.length t p c) ∧
        (∀ j, c ≤ j → ∀ a,
          (insertLoop k v lvl s.heap.length t p c).nxt a j = t.nxt a j) := by
  intro c
  induction c with
  | zero =>
    intro t p P D _ hstatic _ hPD hlast hpdisj hDhead
    exact ⟨fun _ => (P, D), rfl, fun j hj => absurd hj (by omega),
      fun j hj => absurd hj (by omega), hstatic, fun j _ a => rfl⟩
  | succ c ih =>
    intro t p P D hc hstatic hpristine hPD hlast hpdisj hDhead
    have hN1 : t.heap.length = s.heap.length + 1 := by
      rw [hstatic.1, insHeap_len]
    have hnode_old : ∀ a, a < s.heap.length →
        (t.node a).key = (s.node a).key ∧ (t.node a).value = (s.node a).value ∧
        (t.node a).next.length = (s.node a).next.length := by
      intro a ha
      have h3 := (hstatic.2.2) a
      rwa [insHeap_node_old s k v lvl ha] at h3
    have hnode_new : (t.node s.heap.length).next.length = lvl := by
      have h3 := ((hstatic.2.2) s.heap.length).2.2
      rw [insHeap_node_new] at h3
      rw [h3]
      unfold createNode
      simp
    -- the level-c chain in t is still the original one
    have hchain_t : chainIs t c 0 (sChain s c) :=
      (chainIs_congr (fun b => hpristine c (by omega) b)).2 (hwf.chain_all c)
    -- the cursor is on the level-c chain
    have hpmem : p ∈ 0 :: sChain s c := by
      have hp1 : p ∈ P := List.mem_of_getLast?_eq_some hlast
      have hp2 : p ∈ 0 :: sChain s (c + 1) := by
        rw [hPD]
        exact List.mem_append_left _ hp1
      rcases List.mem_cons.1 hp2 with rfl | hp3
      · exact List.mem_cons_self _ _
      · exact List.mem_cons_of_mem _ ((hwf.sub' c).mem hp3)
    obtain ⟨pre2, suf, hsplit2, hchain_s⟩ := chainIs_split (hwf.chain_all c) hpmem
    have hchain_tp : chainIs t c p suf :=
      (chainIs_congr (fun b => hpristine c (by omega) b)).2 hchain_s
    have hlen_suf : suf.length ≤ t.heap.length := by
      have h1 : (0 :: sChain s c).length = pre2.length + (suf.length + 1) := by
        rw [hsplit2]; simp
      have h2 := hwf.len_le c
      simp only [List.length_cons] at h1
      omega
    obtain ⟨hgl, hdwc⟩ := advW_split t (insertCond k v) c hchain_tp hlen_suf
    -- switch the scanning predicate from `t`'s nodes to `s`'s nodes
    have hpredeq : ∀ a ∈ suf,
        (decide (insertCond k v (t.node a)) : Bool) = decide (insertCond k v (s.node a)) := by
      intro a ha
      have ham : a ∈ sChain s c := chain_of_suffix hwf hsplit2 a ha
      obtain ⟨hk1, hv1, -⟩ := hnode_old a (hwf.valid0 ham).2
      apply decide_eq_decide.2
      unfold insertCond
      rw [hk1, hv1]
    rw [takeWhile_congr_mem hpredeq] at hgl
    rw [dropWhile_congr_mem hpredeq] at hdwc
    -- facts about the advanced cursor
    have hglmem : advW t (insertCond k v) c p t.heap.length ∈
        p :: suf.takeWhile (fun a => decide (insertCond k v (s.node a))) := by
      rw [hgl]; exact List.getLast_mem _
    have hp'mem : advW t (insertCond k v) c p t.heap.length ∈ 0 :: sChain s c := by
      rcases List.mem_cons.1 hglmem with he | hm'
      · rw [he]; exact hpmem
      · have h1 := (List.takeWhile_sublist _).mem hm'
        rw [hsplit2]
        exact List.mem_append_right _ (List.mem_cons_of_mem _ h1)
    have hp'disj : advW t (insertCond k v) c p t.heap.length = 0 ∨
        insertCond k v (s.node (advW t (insertCond k v) c p t.heap.length)) := by
      rcases List.mem_cons.1 hglmem with he | hm'
      · rw [he]; exact hpdisj
      · right
        have h2 := List.mem_takeWhile_imp hm'
        rwa [decide_eq_true_eq] at h2
    -- the new split of the level-c chain
    have hPDnew : 0 :: sChain s c =
        (pre2 ++ p :: suf.takeWhile (fun a => decide (insertCond k v (s.node a)))) ++
          suf.dropWhile (fun a => decide (insertCond k v (s.node a))) := by
      rw [hsplit2, List.append_assoc, List.cons_append,
        List.takeWhile_append_dropWhile]
    have hlastnew :
        (pre2 ++ p :: suf.takeWhile (fun a => decide (insertCond k v (s.node a)))).getLast? =
          some (advW t (insertCond k v) c p t.heap.length) := by
      rw [List.getLast?_append,
        List.getLast?_eq_getLast
          (p :: suf.takeWhile (fun a => decide (insertCond k v (s.node a))))
          (List.cons_ne_nil _ _),
        hgl]
      rfl
    have hDheadnew : suf.dropWhile (fun a => decide (insertCond k v (s.node a))) = [] ∨
        ∃ b, (suf.dropWhile (fun a => decide (insertCond k v (s.node a)))).head? = some b ∧
          ¬ insertCond k v (s.node b) := by
      rcases hdwe : suf.dropWhile (fun a => decide (insertCond k v (s.node a))) with
        _ | ⟨b, rest⟩
      · exact Or.inl rfl
      · refine Or.inr ⟨b, rfl, ?_⟩
        have hhead := List.head?_dropWhile_not
          (fun a => decide (insertCond k v (s.node a))) suf
        rw [hdwe] at hhead
        simp only [List.head?_cons, Option.mem_def, Option.some.injEq] at hhead
        exact of_decide_eq_false hhead
    -- the head-0 decomposition of the new prefix part
    have hPnew0 : ∃ P1,
        pre2 ++ p :: suf.takeWhile (fun a => decide (insertCond k v (s.node a))) = 0 :: P1 ∧
        sChain s c = P1 ++ suf.dropWhile (fun a => decide (insertCond k v (s.node a))) := by
      rcases pre2 with _ | ⟨c0, pre2x⟩
      · rw [List.nil_append] at hsplit2
        rw [List.cons.injEq] at hsplit2
        obtain ⟨hp0, hcs⟩ := hsplit2
        refine ⟨suf.takeWhile (fun a => decide (insertCond k v (s.node a))),
          by rw [← hp0]; rfl, ?_⟩
        rw [hcs, List.takeWhile_append_dropWhile]
      · rw [List.cons_append] at hsplit2
        rw [List.cons.injEq] at hsplit2
        obtain ⟨hc0, hcs⟩ := hsplit2
        refine ⟨pre2x ++ p :: suf.takeWhile (fun a => decide (insertCond k v (s.node a))),
          by rw [← hc0, List.cons_append], ?_⟩
        rw [hcs, List.append_assoc, List.cons_append, List.takeWhile_append_dropWhile]
    obtain ⟨P1, hP1eq, hchaineq⟩ := hPnew0
    -- the one-step unfolding of the loop
    have hstep : insertLoop k v lvl s.heap.length t p (c + 1) =
        insertLoop k v lvl s.heap.length
          (if c < lvl then
            ((t.setNext s.heap.length c
                (t.nxt (advW t (insertCond k v) c p t.heap.length) c)).setNext
              (advW t (insertCond k v) c p t.heap.length) c (some s.heap.length))
          else t)
          (advW t (insertCond k v) c p t.heap.length) c := rfl
    by_cases hclvl : c < lvl
    · -- splice the new node in at this level
      have hp'len : advW t (insertCond k v) c p t.heap.length < t.heap.length := by
        rcases List.mem_cons.1 hp'mem with he | hm
        · rw [he]; omega
        · have := (hwf.valid0 hm).2; omega
      have hp'h : c < (t.node (advW t (insertCond k v) c p t.heap.length)).next.length := by
        rcases List.mem_cons.1 hp'mem with he | hm
        · rw [he]
          rw [(hnode_old 0 hwf.hlen).2.2, hwf.hht]
          unfold MAX_LEVEL at hc ⊢
          omega
        · rw [(hnode_old _ (hwf.valid0 hm).2).2.2]
          exact hwf.hheight c (by unfold MAX_LEVEL at *; omega) _ hm
      have hnalen : s.heap.length < t.heap.length := by omega
      have hnah : c < (t.node s.heap.length).next.length := by rw [hnode_new]; exact hclvl
      have hch0 : chainIs t c 0
          (P1 ++ suf.dropWhile (fun a => decide (insertCond k v (s.node a)))) := by
        rw [← hchaineq]
        exact hchain_t
      have hlast0 : (0 :: P1).getLast (List.cons_ne_nil _ _) =
          advW t (insertCond k v) c p t.heap.length := by
        have h1 := hlastnew
        rw [hP1eq, List.getLast?_eq_getLast (0 :: P1) (List.cons_ne_nil _ _)] at h1
        injection h1
      have hnd0x : (0 :: (P1 ++ suf.dropWhile
          (fun a => decide (insertCond k v (s.node a))))).Nodup := by
        rw [← hchaineq]
        exact hwf.nodup0 c
      have hnax : s.heap.length ∉ 0 :: (P1 ++ suf.dropWhile
          (fun a => decide (insertCond k v (s.node a)))) := by
        rw [← hchaineq]
        intro hm
        rcases List.mem_cons.1 hm with he | hm2
        · have := hwf.hlen; omega
        · have := (hwf.valid0 hm2).2; omega
      have hsplice := chainIs_splice hp'len hp'h hnalen hnah 0 P1 hch0 hlast0 hnd0x hnax
      -- invariants of the spliced state
      have hstatic2 := (hstatic.trans_setNext s.heap.length c
          (t.nxt (advW t (insertCond k v) c p t.heap.length) c)).trans_setNext
        (advW t (insertCond k v) c p t.heap.length) c (some s.heap.length)
      have hpristine2 : ∀ j, j < c → ∀ a,
          ((t.setNext s.heap.length c
              (t.nxt (advW t (insertCond k v) c p t.heap.length) c)).setNext
            (advW t (insertCond k v) c p t.heap.length) c (some s.heap.length)).nxt a j =
          s.nxt a j := by
        intro j hj a
        rw [SL.nxt_setNext_ne _ _ (Or.inr (by omega)),
          SL.nxt_setNext_ne _ _ (Or.inr (by omega))]
        exact hpristine j (by omega) a
      obtain ⟨F2, hF2c, hF2props, hF2bridges, hF2static, hF2high⟩ :=
        ih ((t.setNext s.heap.length c
              (t.nxt (advW t (insertCond k v) c p t.heap.length) c)).setNext
            (advW t (insertCond k v) c p t.heap.length) c (some s.heap.length))
          (advW t (insertCond k v) c p t.heap.length)
          (pre2 ++ p :: suf.takeWhile (fun a => decide (insertCond k v (s.node a))))
          (suf.dropWhile (fun a => decide (insertCond k v (s.node a))))
          (by omega) hstatic2 hpristine2 hPDnew hlastnew hp'disj hDheadnew
      rw [hstep, if_pos hclvl]
      refine ⟨fun j => if j = c + 1 then (P, D) else F2 j, if_pos rfl, ?_, ?_, ?_, ?_⟩
      · intro j hj
        show LvlData _ _ _ _ _ _ _ (if j = c + 1 then (P, D) else F2 j)
        rw [if_neg (show j ≠ c + 1 by omega)]
        rcases Nat.lt_or_ge j c with hjc | hjc
        · exact hF2props j hjc
        · obtain rfl : c = j := by omega
          rw [hF2c]
          refine ⟨hPDnew, by simp, ?_, hDheadnew, fun _ => ?_,
            fun hle2 => absurd hle2 (by omega)⟩
          · intro x hx
            have hx2 : (pre2 ++ p :: suf.takeWhile
                (fun a => decide (insertCond k v (s.node a)))).getLast? = some x := hx
            rw [hlastnew] at hx2
            injection hx2 with hx2
            rw [hx2] at hp'disj
            exact hp'disj
          · -- the chain at level c in the final state
            show chainIs _ c 0 ((pre2 ++ p :: suf.takeWhile
                (fun a => decide (insertCond k v (s.node a)))).tail ++
              s.heap.length :: suf.dropWhile (fun a => decide (insertCond k v (s.node a))))
            have hcongr : ∀ b,
                (insertLoop k v lvl s.heap.length
                  ((t.setNext s.heap.length c
                      (t.nxt (advW t (insertCond k v) c p t.heap.length) c)).setNext
                    (advW t (insertCond k v) c p t.heap.length) c (some s.heap.length))
                  (advW t (insertCond k v) c p t.heap.length) c).nxt b c =
                ((t.setNext s.heap.length c
                    (t.nxt (advW t (insertCond k v) c p t.heap.length) c)).setNext
                  (advW t (insertCond k v) c p t.heap.length) c (some s.heap.length)).nxt b c :=
              fun b => hF2high c (le_refl c) b
            rw [hP1eq, List.tail_cons]
            exact (chainIs_congr hcongr).2 hsplice
      · intro j hj
        show List.Sublist (if j + 1 = c + 1 then (P, D) else F2 (j + 1)).1
            (if j = c + 1 then (P, D) else F2 j).1 ∧
          List.Sublist (if j + 1 = c + 1 then (P, D) else F2 (j + 1)).2
            (if j = c + 1 then (P, D) else F2 j).2
        rcases Nat.lt_or_ge j c with hjc | hjc
        · rw [if_neg (show j + 1 ≠ c + 1 by omega), if_neg (show j ≠ c + 1 by omega)]
          exact hF2bridges j hjc
        · obtain rfl : c = j := by omega
          rw [if_pos rfl, if_neg (show c ≠ c + 1 by omega), hF2c]
          -- bridge between the entering split (P, D) and the level-c split
          have hnd_c : (0 :: sChain s c).Nodup := hwf.nodup0 c
          have hpnotpre2 : p ∉ pre2 := by
            rw [hsplit2] at hnd_c
            have := (List.nodup_append.1 hnd_c).2.2
            intro hm
            exact this hm (List.mem_cons_self _ _)
          have hpnotsuf : p ∉ suf := by
            rw [hsplit2] at hnd_c
            exact (List.nodup_cons.1 (List.nodup_append.1 hnd_c).2.1).1
          have hPsub : List.Sublist P (0 :: sChain s c) := by
            have h1 : List.Sublist P (0 :: sChain s (c + 1)) := by
              rw [hPD]
              exact List.sublist_append_left _ _
            exact h1.trans (List.Sublist.cons₂ 0 (hwf.sub' c))
          have hPdecomp : P.dropLast ++ [p] = P :=
            List.dropLast_append_getLast? p hlast
          constructor
          · -- P <+ pre2 ++ p :: takeWhile
            have h2 : List.Sublist (P.dropLast ++ [p]) (pre2 ++ p :: suf) := by
              rw [hPdecomp]
              rw [hsplit2] at hPsub
              exact hPsub
            have h3 := sublist_pin_front h2 hpnotpre2 hpnotsuf
            rw [hPdecomp] at h3
            refine h3.trans ?_
            exact List.Sublist.append (List.Sublist.refl _)
              (List.cons_sublist_cons.2 (List.nil_sublist _))
          · -- D <+ dropWhile
            have h2 : List.Sublist (p :: D) (pre2 ++ p :: suf) := by
              have h1 : List.Sublist (p :: D) (0 :: sChain s (c + 1)) := by
                rw [hPD, ← hPdecomp, List.append_assoc]
                exact List.sublist_append_right _ _
              rw [← hsplit2]
              exact h1.trans (List.Sublist.cons₂ 0 (hwf.sub' c))
            have h3 := sublist_pin_suffix h2 hpnotpre2
            rcases hDhead with rfl | ⟨b, hbhead, hbnot⟩
            · exact List.nil_sublist _
            · rcases hDe : D with _ | ⟨b2, B⟩
              · exact List.nil_sublist _
              · rw [hDe] at hbhead h3
                simp only [List.head?_cons, Option.some.injEq] at hbhead
                obtain rfl : b = b2 := hbhead.symm
                have hbnot_tw : b ∉ suf.takeWhile
                    (fun a => decide (insertCond k v (s.node a))) := by
                  intro hm
                  have := List.mem_takeWhile_imp hm
                  rw [decide_eq_true_eq] at this
                  exact hbnot this
                have h4 : List.Sublist (b :: B)
                    (suf.takeWhile (fun a => decide (insertCond k v (s.node a))) ++
                     suf.dropWhile (fun a => decide (insertCond k v (s.node a)))) := by
                  rw [List.takeWhile_append_dropWhile]
                  exact h3
                exact sublist_drop_front h4 hbnot_tw
      · exact hF2static
      · intro j hj a
        rw [hF2high j (by omega) a,
          SL.nxt_setNext_ne _ _ (Or.inr (by omega)),
          SL.nxt_setNext_ne _ _ (Or.inr (by omega))]
    · -- no splice at this level
      have hle : lvl ≤ c := by omega
      obtain ⟨F2, hF2c, hF2props, hF2bridges, hF2static, hF2high⟩ :=
        ih t (advW t (insertCond k v) c p t.heap.length)
          (pre2 ++ p :: suf.takeWhile (fun a => decide (insertCond k v (s.node a))))
          (suf.dropWhile (fun a => decide (insertCond k v (s.node a))))
          (by omega) hstatic (fun j hj a => hpristine j (by omega) a)
          hPDnew hlastnew hp'disj hDheadnew
      rw [hstep, if_neg hclvl]
      refine ⟨fun j => if j = c + 1 then (P, D) else F2 j, if_pos rfl, ?_, ?_, ?_, ?_⟩
      · intro j hj
        show LvlData _ _ _ _ _ _ _ (if j = c + 1 then (P, D) else F2 j)
        rw [if_neg (show j ≠ c + 1 by omega)]
        rcases Nat.lt_or_ge j c with hjc | hjc
        · exact hF2props j hjc
        · obtain rfl : c = j := by omega
          rw [hF2c]
          refine ⟨hPDnew, by simp, ?_, hDheadnew,
            fun hlt => absurd hlt (by omega), fun _ => ?_⟩
          · intro x hx
            have hx2 : (pre2 ++ p :: suf.takeWhile
                (fun a => decide (insertCond k v (s.node a)))).getLast? = some x := hx
            rw [hlastnew] at hx2
            injection hx2 with hx2
            rw [hx2] at hp'disj
            exact hp'disj
          · refine (chainIs_congr (fun b => hF2high c (le_refl c) b)).2 ?_
            exact hchain_t
      · intro j hj
        show List.Sublist (if j + 1 = c + 1 then (P, D) else F2 (j + 1)).1
            (if j = c + 1 then (P, D) else F2 j).1 ∧
          List.Sublist (if j + 1 = c + 1 then (P, D) else F2 (j + 1)).2
            (if j = c + 1 then (P, D) else F2 j).2
        rcases Nat.lt_or_ge j c with hjc | hjc
        · rw [if_neg (show j + 1 ≠ c + 1 by omega), if_neg (show j ≠ c + 1 by omega)]
          exact hF2bridges j hjc
        · obtain rfl : c = j := by omega
          rw [if_pos rfl, if_neg (show c ≠ c + 1 by omega), hF2c]
          have hnd_c : (0 :: sChain s c).Nodup := hwf.nodup0 c
          have hpnotpre2 : p ∉ pre2 := by
            rw [hsplit2] at hnd_c
            have := (List.nodup_append.1 hnd_c).2.2
            intro hm
            exact this hm (List.mem_cons_self _ _)
          have hpnotsuf : p ∉ suf := by
            rw [hsplit2] at hnd_c
            exact (List.nodup_cons.1 (List.nodup_append.1 hnd_c).2.1).1
          have hPsub : List.Sublist P (0 :: sChain s c) := by
            have h1 : List.Sublist P (0 :: sChain s (c + 1)) := by
              rw [hPD]
              exact List.sublist_append_left _ _
            exact h1.trans (List.Sublist.cons₂ 0 (hwf.sub' c))
          have hPdecomp : P.dropLast ++ [p] = P :=
            List.dropLast_append_getLast? p hlast
          constructor
          · have h2 : List.Sublist (P.dropLast ++ [p]) (pre2 ++ p :: suf) := by
              rw [hPdecomp]
              rw [hsplit2] at hPsub
              exact hPsub
            have h3 := sublist_pin_front h2 hpnotpre2 hpnotsuf
            rw [hPdecomp] at h3
            refine h3.trans ?_
            exact List.Sublist.append (List.Sublist.refl _)
              (List.cons_sublist_cons.2 (List.nil_sublist _))
          · have h2 : List.Sublist (p :: D) (pre2 ++ p :: suf) := by
              have h1 : List.Sublist (p :: D) (0 :: sChain s (c + 1)) := by
                rw [hPD, ← hPdecomp, List.append_assoc]
                exact List.sublist_append_right _ _
              rw [← hsplit2]
              exact h1.trans (List.Sublist.cons₂ 0 (hwf.sub' c))
            have h3 := sublist_pin_suffix h2 hpnotpre2
            rcases hDhead with rfl | ⟨b, hbhead, hbnot⟩
            · exact List.nil_sublist _
            · rcases hDe : D with _ | ⟨b2, B⟩
              · exact List.nil_sublist _
              · rw [hDe] at hbhead h3
                simp only [List.head?_cons, Option.some.injEq] at hbhead
                obtain rfl : b = b2 := hbhead.symm
                have hbnot_tw : b ∉ suf.takeWhile
                    (fun a => decide (insertCond k v (s.node a))) := by
                  intro hm
                  have := List.mem_takeWhile_imp hm
                  rw [decide_eq_true_eq] at this
                  exact hbnot this
                have h4 : List.Sublist (b :: B)
                    (suf.takeWhile (fun a => decide (insertCond k v (s.node a))) ++
                     suf.dropWhile (fun a => decide (insertCond k v (s.node a)))) := by
                  rw [List.takeWhile_append_dropWhile]
                  exact h3
                exact sublist_drop_front h4 hbnot_tw
      · exact hF2static
      · intro j hj a
        exact hF2high j (by omega) a

/-! ## Assembling `insert` -/

theorem head_of_split {c P D : List Nat} (h : 0 :: c = P ++ D) (hne : P ≠ []) :
    ∃ P1, P = 0 :: P1 ∧ c = P1 ++ D := by
  rcases P with _ | ⟨p0, P1⟩
  · exact absurd rfl hne
  · rw [List.cons_append, List.cons.injEq] at h
    exact ⟨P1, by rw [← h.1], h.2⟩

theorem sublist_strip_head {α : Type} {x : α} {A B : List α}
    (h : List.Sublist (x :: A) (x :: B)) (hx : x ∉ B) : List.Sublist A B := by
  cases h with
  | cons _ h => exact absurd (h.mem (List.mem_cons_self _ _)) hx
  | cons₂ _ h => exact h

theorem pairwise_getLast {α : Type} {R : α → α → Prop} :
    ∀ {L : List α} {x : α}, List.Pairwise R L → L.getLast? = some x →
      ∀ a ∈ L, a = x ∨ R a x
  | [], _, _, h, a, ha => by cases ha
  | [b], x, _, h, a, ha => by
      left
      simp only [List.getLast?_singleton, Option.some.injEq] at h
      simp only [List.mem_singleton] at ha
      rw [ha, ← h]
  | b :: c :: L, x, hp, h, a, ha => by
      rw [List.getLast?_cons_cons] at h
      obtain ⟨hb, hp2⟩ := List.pairwise_cons.1 hp
      rcases List.mem_cons.1 ha with rfl | ha2
      · right
        exact hb x (List.mem_of_getLast?_eq_some h)
      · exact pairwise_getLast hp2 h a ha2

/-- Full characterisation of `insert`: return value, state shape, and the
per-level splice positions. -/
theorem insert_main {s : SL} (hwf : WF s) (k v : Int) (lvl : Nat)
    (h1 : 1 ≤ lvl) (h32 : lvl ≤ MAX_LEVEL) (hk : INT_MIN ≤ k) :
    (s.insert k v lvl).1 = 0 ∧
    (s.insert k v lvl).2.heap.length = s.heap.length + 1 ∧
    (s.insert k v lvl).2.maxLevel_ = max s.maxLevel_ lvl ∧
    (∀ a, ((s.insert k v lvl).2.node a).key =
        (if a = s.heap.length then k else (s.node a).key) ∧
      ((s.insert k v lvl).2.node a).value =
        (if a = s.heap.length then v else (s.node a).value)) ∧
    WF (s.insert k v lvl).2 ∧
    ∃ pre post : Nat → List Nat, ∀ j, j ≤ MAX_LEVEL →
      sChain s j = pre j ++ post j ∧
      (∀ x, (pre j).getLast? = some x → insertCond k v (s.node x)) ∧
      (post j = [] ∨ ∃ b, (post j).head? = some b ∧ ¬ insertCond k v (s.node b)) ∧
      (j < lvl → sChain (s.insert k v lvl).2 j = pre j ++ s.heap.length :: post j) ∧
      (lvl ≤ j → sChain (s.insert k v lvl).2 j = sChain s j) := by
  have hml2 : max s.maxLevel_ lvl ≤ MAX_LEVEL := by
    have := hwf.hml
    omega
  have hDml2 : sChain s (max s.maxLevel_ lvl) = [] := by
    rcases Nat.lt_or_ge (max s.maxLevel_ lvl) MAX_LEVEL with hlt | hge
    · exact hwf.hhigh _ hlt (le_max_left _ _)
    · exact sChain_of_height_le (by rw [hwf.hht]; omega)
  have hs1static : InsStatic (insHeap s k v lvl) (insHeap s k v lvl) :=
    ⟨rfl, rfl, fun a => ⟨rfl, rfl, rfl⟩⟩
  have hs1pristine : ∀ j, j < max s.maxLevel_ lvl → ∀ a,
      (insHeap s k v lvl).nxt a j = s.nxt a j :=
    fun j _ a => insHeap_nxt s k v lvl a j
  have hPD0 : 0 :: sChain s (max s.maxLevel_ lvl) = [0] ++ [] := by
    rw [hDml2]
    rfl
  obtain ⟨F, hFtop, hFprops, hFbridges, hFstatic, hFhigh⟩ :=
    insertLoop_spec hwf k v lvl h32 (max s.maxLevel_ lvl) (insHeap s k v lvl) 0
      [0] [] hml2 hs1static hs1pristine hPD0 rfl (Or.inl rfl) (Or.inl rfl)
  -- the result state
  have hinsdef : s.insert k v lvl =
      (0, insertLoop k v lvl s.heap.length (insHeap s k v lvl) 0
        (max s.maxLevel_ lvl)) := rfl
  rw [hinsdef]
  have hulen : (insertLoop k v lvl s.heap.length (insHeap s k v lvl) 0
      (max s.maxLevel_ lvl)).heap.length = s.heap.length + 1 := by
    rw [hFstatic.1, insHeap_len]
  have huml : (insertLoop k v lvl s.heap.length (insHeap s k v lvl) 0
      (max s.maxLevel_ lvl)).maxLevel_ = max s.maxLevel_ lvl := hFstatic.2.1
  have hukeys : ∀ a,
      ((insertLoop k v lvl s.heap.length (insHeap s k v lvl) 0
          (max s.maxLevel_ lvl)).node a).key =
        (if a = s.heap.length then k else (s.node a).key) ∧
      ((insertLoop k v lvl s.heap.length (insHeap s k v lvl) 0
          (max s.maxLevel_ lvl)).node a).value =
        (if a = s.heap.length then v else (s.node a).value) ∧
      ((insertLoop k v lvl s.heap.length (insHeap s k v lvl) 0
          (max s.maxLevel_ lvl)).node a).next.length =
        (if a = s.heap.length then lvl else (s.node a).next.length) := by
    intro a
    obtain ⟨h1a, h2a, h3a⟩ := hFstatic.2.2 a
    by_cases ha : a = s.heap.length
    · rw [ha] at h1a h2a h3a ⊢
      rw [insHeap_node_new] at h1a h2a h3a
      rw [if_pos rfl, if_pos rfl, if_pos rfl]
      refine ⟨h1a, h2a, ?_⟩
      rw [h3a]
      unfold createNode
      simp
    · rw [if_neg ha, if_neg ha, if_neg ha]
      rcases Nat.lt_or_ge a s.heap.length with halt | hage
      · rw [insHeap_node_old s k v lvl halt] at h1a h2a h3a
        exact ⟨h1a, h2a, h3a⟩
      · have hd1 : (insHeap s k v lvl).node a = createNode 0 0 0 := by
          unfold SL.node
          refine List.getD_eq_default _ _ ?_
          rw [insHeap_len]
          omega
        have hd2 : s.node a = createNode 0 0 0 := by
          unfold SL.node
          exact List.getD_eq_default _ _ (by omega)
        rw [hd1] at h1a h2a h3a
        rw [hd2]
        exact ⟨h1a, h2a, h3a⟩
  -- extended per-level data
  have hlvlml2 : lvl ≤ max s.maxLevel_ lvl := le_max_right _ _
  have hprops : ∀ j, j ≤ MAX_LEVEL →
      LvlData s (insertLoop k v lvl s.heap.length (insHeap s k v lvl) 0
        (max s.maxLevel_ lvl)) k v lvl s.heap.length j
        (if j < max s.maxLevel_ lvl then F j else (0 :: sChain s j, [])) := by
    intro j hj
    by_cases hjml : j < max s.maxLevel_ lvl
    · rw [if_pos hjml]
      exact hFprops j hjml
    · rw [if_neg hjml]
      have hchJ : sChain s j = [] := by
        rcases Nat.lt_or_ge j MAX_LEVEL with hlt | hge
        · exact hwf.hhigh _ hlt (by omega)
        · exact sChain_of_height_le (by rw [hwf.hht]; omega)
      have hchain_u : chainIs (insertLoop k v lvl s.heap.length (insHeap s k v lvl) 0
          (max s.maxLevel_ lvl)) j 0 (sChain s j) := by
        refine (chainIs_congr (fun b => ?_)).2 (hwf.chain_all j)
        rw [hFhigh j (by omega) b, insHeap_nxt]
      refine ⟨by simp, by simp, ?_, Or.inl rfl, ?_, fun _ => hchain_u⟩
      · intro x hx
        rw [hchJ] at hx
        simp only [List.getLast?_singleton, Option.some.injEq] at hx
        exact Or.inl hx.symm
      · intro hjlvl
        omega
  have hmain : ∀ j, ∃ P1 D1 : List Nat, j ≤ MAX_LEVEL →
      sChain s j = P1 ++ D1 ∧
      (∀ x, P1.getLast? = some x → insertCond k v (s.node x)) ∧
      (D1 = [] ∨ ∃ b, D1.head? = some b ∧ ¬ insertCond k v (s.node b)) ∧
      (j < lvl →
        chainIs (insertLoop k v lvl s.heap.length (insHeap s k v lvl) 0
          (max s.maxLevel_ lvl)) j 0 (P1 ++ s.heap.length :: D1) ∧
        sChain (insertLoop k v lvl s.heap.length (insHeap s k v lvl) 0
          (max s.maxLevel_ lvl)) j = P1 ++ s.heap.length :: D1) ∧
      (lvl ≤ j →
        chainIs (insertLoop k v lvl s.heap.length (insHeap s k v lvl) 0
          (max s.maxLevel_ lvl)) j 0 (sChain s j) ∧
        sChain (insertLoop k v lvl s.heap.length (insHeap s k v lvl) 0
          (max s.maxLevel_ lvl)) j = sChain s j) ∧
      ((if j < max s.maxLevel_ lvl then F j else (0 :: sChain s j, [])).1 = 0 :: P1 ∧
        (if j < max s.maxLevel_ lvl then F j else (0 :: sChain s j, [])).2 = D1) := by
    intro j
    by_cases hj : j ≤ MAX_LEVEL
    · obtain ⟨hA1, hA2, hA3, hA4, hA5, hA6⟩ := hprops j hj
      obtain ⟨P1, hP1, hchain1⟩ := head_of_split hA1 hA2
      refine ⟨P1, (if j < max s.maxLevel_ lvl then F j else (0 :: sChain s j, [])).2,
        fun _ => ⟨hchain1, ?_, hA4, ?_, ?_, hP1, rfl⟩⟩
      · intro x hx
        have hP1ne : P1 ≠ [] := by
          intro he
          rw [he] at hx
          cases hx
        have hPgl : (if j < max s.maxLevel_ lvl then F j
            else (0 :: sChain s j, [])).1.getLast? = some x := by
          rw [hP1]
          rcases P1 with _ | ⟨y, R⟩
          · exact absurd rfl hP1ne
          · rw [List.getLast?_cons_cons]
            exact hx
        rcases hA3 x hPgl with h0 | hcond
        · exfalso
          have hxm : x ∈ P1 := List.mem_of_getLast?_eq_some hx
          have hxc : x ∈ sChain s j := by
            rw [hchain1]
            exact List.mem_append_left _ hxm
          have := (hwf.valid0 hxc).1
          omega
        · exact hcond
      · intro hjlvl
        have hch := hA5 hjlvl
        rw [hP1, List.tail_cons] at hch
        refine ⟨hch, sChain_eq_of_chainIs hch ?_⟩
        have hlenj := hwf.len_le j
        have hlen2 := congrArg List.length hchain1
        rw [List.length_append] at hlen2
        rw [hulen]
        simp only [List.length_append, List.length_cons]
        omega
      · intro hjlvl
        have hch := hA6 hjlvl
        refine ⟨hch, sChain_eq_of_chainIs hch ?_⟩
        have hlenj := hwf.len_le j
        rw [hulen]
        omega
    · exact ⟨[], [], fun hc => absurd hc hj⟩
  choose P1f D1f hmainf using hmain
  have hN1 : 0 < s.heap.length := hwf.hlen
  -- well-formedness of the resulting state
  have hwfu : WF (insertLoop k v lvl s.heap.length (insHeap s k v lvl) 0
      (max s.maxLevel_ lvl)) := by
    refine ⟨?_, ?_, ?_, ?_, ?_, ?_, ?_, ?_, ?_, ?_, ?_, ?_⟩
    · rw [hulen]
      omega
    · rw [(hukeys 0).1, if_neg (by omega)]
      exact hwf.hkey
    · rw [(hukeys 0).2.2, if_neg (by omega)]
      exact hwf.hht
    · rw [huml]
      exact hml2
    · -- hch
      intro i hi
      obtain ⟨h1, h2, h3, h4, h5, h6⟩ := hmainf i (by omega)
      rcases Nat.lt_or_ge i lvl with hilvl | hilvl
      · rw [(h4 hilvl).2]
        exact (h4 hilvl).1
      · rw [(h5 hilvl).2]
        exact (h5 hilvl).1
    · -- hvalid
      intro i hi a ha
      obtain ⟨h1, h2, h3, h4, h5, h6⟩ := hmainf i (by omega)
      rcases Nat.lt_or_ge i lvl with hilvl | hilvl
      · rw [(h4 hilvl).2] at ha
        rw [hulen]
        rcases List.mem_append.1 ha with hm | hm
        · have hms : a ∈ sChain s i := by rw [h1]; exact List.mem_append_left _ hm
          have := hwf.valid0 hms
          omega
        · rcases List.mem_cons.1 hm with rfl | hm2
          · omega
          · have hms : a ∈ sChain s i := by rw [h1]; exact List.mem_append_right _ hm2
            have := hwf.valid0 hms
            omega
      · rw [(h5 hilvl).2] at ha
        have := hwf.valid0 ha
        rw [hulen]
        omega
    · -- hnd
      intro i hi
      obtain ⟨h1, h2, h3, h4, h5, h6⟩ := hmainf i (by omega)
      rcases Nat.lt_or_ge i lvl with hilvl | hilvl
      · rw [(h4 hilvl).2]
        refine List.nodup_middle.2 (List.nodup_cons.2 ⟨?_, ?_⟩)
        · intro hm
          have hms : s.heap.length ∈ sChain s i := by rw [h1]; exact hm
          have := (hwf.valid0 hms).2
          omega
        · rw [← h1]
          exact hwf.hnd i hi
      · rw [(h5 hilvl).2]
        exact hwf.hnd i hi
    · -- hhigh
      intro i hi hmlle
      rw [huml] at hmlle
      obtain ⟨h1, h2, h3, h4, h5, h6⟩ := hmainf i (by omega)
      rw [(h5 (by omega)).2]
      rcases Nat.lt_or_ge i MAX_LEVEL with hlt | hge
      · exact hwf.hhigh i hlt (by omega)
      · exact sChain_of_height_le (by rw [hwf.hht]; omega)
    · -- hsub
      intro i hi
      obtain ⟨h1, h2, h3, h4, h5, h6⟩ := hmainf i (by omega)
      obtain ⟨g1, g2, g3, g4, g5, g6⟩ := hmainf (i + 1) (by omega)
      rcases Nat.lt_or_ge (i + 1) lvl with hilvl | hilvl
      · -- both levels got the new node; use the bridge data
        rw [(h4 (by omega)).2, (g4 hilvl).2]
        have himl : i < max s.maxLevel_ lvl := by omega
        have hi1ml : i + 1 < max s.maxLevel_ lvl := by omega
        rw [if_pos himl] at h6
        rw [if_pos hi1ml] at g6
        obtain ⟨hbr1, hbr2⟩ := hFbridges i himl
        rw [h6.1, g6.1] at hbr1
        rw [h6.2, g6.2] at hbr2
        have h0nm : (0 : Nat) ∉ P1f i := by
          intro hm
          have hms : (0 : Nat) ∈ sChain s i := by
            rw [h1]
            exact List.mem_append_left _ hm
          have := (hwf.valid0 hms).1
          omega
        exact (sublist_strip_head hbr1 h0nm).append (List.cons_sublist_cons.2 hbr2)
      · rcases Nat.lt_or_ge i lvl with hilvl2 | hilvl2
        · -- boundary level: the splice appears only below
          rw [(h4 hilvl2).2, (g5 hilvl).2]
          have hss : List.Sublist (sChain s (i + 1)) (P1f i ++ D1f i) := by
            rw [← h1]
            exact hwf.hsub i hi
          exact hss.trans ((List.Sublist.refl _).append (List.sublist_cons_self _ _))
        · rw [(h5 hilvl2).2, (g5 hilvl).2]
          exact hwf.hsub i hi
    · -- hheight
      intro i hi a ha
      obtain ⟨h1, h2, h3, h4, h5, h6⟩ := hmainf i (by omega)
      have hnl := (hukeys a).2.2
      rcases Nat.lt_or_ge i lvl with hilvl | hilvl
      · rw [(h4 hilvl).2] at ha
        rcases List.mem_append.1 ha with hm | hm
        · have hms : a ∈ sChain s i := by rw [h1]; exact List.mem_append_left _ hm
          have hlt := (hwf.valid0 hms).2
          rw [hnl, if_neg (by omega)]
          exact hwf.hheight i hi a hms
        · rcases List.mem_cons.1 hm with rfl | hm2
          · rw [hnl, if_pos rfl]
            exact hilvl
          · have hms : a ∈ sChain s i := by rw [h1]; exact List.mem_append_right _ hm2
            have hlt := (hwf.valid0 hms).2
            rw [hnl, if_neg (by omega)]
            exact hwf.hheight i hi a hms
      · rw [(h5 hilvl).2] at ha
        have hlt := (hwf.valid0 ha).2
        rw [hnl, if_neg (by omega)]
        exact hwf.hheight i hi a ha
    · -- hsort
      intro i hi
      obtain ⟨h1, h2, h3, h4, h5, h6⟩ := hmainf i (by omega)
      rcases Nat.lt_or_ge i lvl with hilvl | hilvl
      · rw [(h4 hilvl).2]
        have hsortS : List.Pairwise (fun a b => (s.node a).key ≤ (s.node b).key)
            (P1f i ++ D1f i) := by
          rw [← h1]
          exact hwf.hsort i hi
        obtain ⟨hsP, hsD, hsX⟩ := List.pairwise_append.1 hsortS
        have hmemP : ∀ a ∈ P1f i, a ∈ sChain s i := by
          intro a ha
          rw [h1]
          exact List.mem_append_left _ ha
        have hmemD : ∀ a ∈ D1f i, a ∈ sChain s i := by
          intro a ha
          rw [h1]
          exact List.mem_append_right _ ha
        have hne : ∀ a ∈ sChain s i, a ≠ s.heap.length := by
          intro a ha
          have := (hwf.valid0 ha).2
          omega
        have hPk : ∀ a ∈ P1f i, (s.node a).key ≤ k := by
          intro a ha
          have hnee : P1f i ≠ [] := List.ne_nil_of_mem ha
          have hgl : (P1f i).getLast? = some ((P1f i).getLast hnee) :=
            List.getLast?_eq_getLast _ hnee
          have hcondx := h2 _ hgl
          have hxle : (s.node ((P1f i).getLast hnee)).key ≤ k := by
            unfold insertCond at hcondx
            rcases hcondx with hlt | ⟨heq, _⟩
            · exact le_of_lt (comparator_lt_zero_iff.1 hlt)
            · exact le_of_eq (comparator_eq_zero_iff.1 heq)
          rcases pairwise_getLast hsP hgl a ha with rfl | hle
          · exact hxle
          · exact le_trans hle hxle
        have hDk : ∀ b ∈ D1f i, k ≤ (s.node b).key := by
          rcases h3 with hnil | ⟨b0, hb0, hb0c⟩
          · rw [hnil]
            intro b hb
            cases hb
          · have hkb0 : k ≤ (s.node b0).key := by
              unfold insertCond at hb0c
              by_contra hc
              exact hb0c (Or.inl (comparator_lt_zero_iff.2 (lt_of_not_le hc)))
            intro b hb
            rcases hD : D1f i with _ | ⟨b0x, tail⟩
            · rw [hD] at hb
              cases hb
            · rw [hD] at hb hb0 hsD
              rw [List.head?_cons] at hb0
              injection hb0 with he
              subst he
              obtain ⟨hhead, _⟩ := List.pairwise_cons.1 hsD
              rcases List.mem_cons.1 hb with rfl | hbt
              · exact hkb0
              · exact le_trans hkb0 (hhead b hbt)
        have hgoal : List.Pairwise
            (fun a b => (if a = s.heap.length then k else (s.node a).key) ≤
              (if b = s.heap.length then k else (s.node b).key))
            (P1f i ++ s.heap.length :: D1f i) := by
          refine List.pairwise_append.2 ⟨?_, ?_, ?_⟩
          · refine hsP.imp_of_mem ?_
            intro a b ha hb hle
            rw [if_neg (hne a (hmemP a ha)), if_neg (hne b (hmemP b hb))]
            exact hle
          · refine List.pairwise_cons.2 ⟨?_, ?_⟩
            · intro b hb
              rw [if_pos rfl, if_neg (hne b (hmemD b hb))]
              exact hDk b hb
            · refine hsD.imp_of_mem ?_
              intro a b ha hb hle
              rw [if_neg (hne a (hmemD a ha)), if_neg (hne b (hmemD b hb))]
              exact hle
          · intro a ha b hb
            rw [if_neg (hne a (hmemP a ha))]
            rcases List.mem_cons.1 hb with rfl | hb2
            · rw [if_pos rfl]
              exact hPk a ha
            · rw [if_neg (hne b (hmemD b hb2))]
              exact le_trans (hPk a ha) (hDk b hb2)
        refine hgoal.imp_of_mem ?_
        intro a b ha hb hle
        rw [(hukeys a).1, (hukeys b).1]
        exact hle
      · rw [(h5 hilvl).2]
        refine (hwf.hsort i hi).imp_of_mem ?_
        intro a b ha hb hle
        rw [(hukeys a).1, (hukeys b).1,
          if_neg (show a ≠ s.heap.length by have := (hwf.valid0 ha).2; omega),
          if_neg (show b ≠ s.heap.length by have := (hwf.valid0 hb).2; omega)]
        exact hle
    · -- hkmin
      intro a ha
      obtain ⟨h1, h2, h3, h4, h5, h6⟩ := hmainf 0 (Nat.zero_le _)
      rw [(h4 (by omega)).2] at ha
      rw [(hukeys a).1]
      rcases List.mem_append.1 ha with hm | hm
      · have hms : a ∈ sChain s 0 := by rw [h1]; exact List.mem_append_left _ hm
        rw [if_neg (show a ≠ s.heap.length by have := (hwf.valid0 hms).2; omega)]
        exact hwf.hkmin a hms
      · rcases List.mem_cons.1 hm with rfl | hm2
        · rw [if_pos rfl]
          exact hk
        · have hms : a ∈ sChain s 0 := by rw [h1]; exact List.mem_append_right _ hm2
          rw [if_neg (show a ≠ s.heap.length by have := (hwf.valid0 hms).2; omega)]
          exact hwf.hkmin a hms
  refine ⟨rfl, hulen, huml, fun a => ⟨(hukeys a).1, (hukeys a).2.1⟩, hwfu,
    P1f, D1f, fun j hj => ?_⟩
  obtain ⟨h1, h2, h3, h4, h5, h6⟩ := hmainf j hj
  exact ⟨h1, h2, h3, fun hjl => (h4 hjl).2, fun hjl => (h5 hjl).2⟩

/-! ## The `remove` loop

Per level `j`, `remove` advances past the nodes with key < `K` (`remPre`) and,
if the first remaining node (`remSuf`'s head) has key exactly `K`, unlinks it
at that level. -/

theorem takeWhile_append_all {α : Type} {P : α → Bool} :
    ∀ {l1 l2 : List α}, (∀ a ∈ l1, P a = true) →
      (l1 ++ l2).takeWhile P = l1 ++ l2.takeWhile P
  | [], l2, _ => rfl
  | a :: l1, l2, h => by
      rw [List.cons_append, List.takeWhile_cons, h a (List.mem_cons_self _ _), if_pos rfl,
        takeWhile_append_all (fun b hb => h b (List.mem_cons_of_mem _ hb)), List.cons_append]

theorem dropWhile_append_all {α : Type} {P : α → Bool} :
    ∀ {l1 l2 : List α}, (∀ a ∈ l1, P a = true) →
      (l1 ++ l2).dropWhile P = l2.dropWhile P
  | [], l2, _ => rfl
  | a :: l1, l2, h => by
      rw [List.cons_append, List.dropWhile_cons, h a (List.mem_cons_self _ _), if_pos rfl]
      exact dropWhile_append_all (fun b hb => h b (List.mem_cons_of_mem _ hb))

theorem WF.sub_le {s : SL} (hwf : WF s) {i j : Nat} (hij : i ≤ j) :
    List.Sublist (sChain s j) (sChain s i) := by
  induction j with
  | zero =>
    obtain rfl : i = 0 := by omega
    exact List.Sublist.refl _
  | succ j ih =>
    rcases Nat.lt_or_ge i (j + 1) with hlt | hge
    · exact (hwf.sub' j).trans (ih (by omega))
    · obtain rfl : i = j + 1 := by omega
      exact List.Sublist.refl _

/-- A sublist avoiding `x` is also a sublist of the erasure of `x`. -/
theorem sublist_erase_right {α : Type} [DecidableEq α] {l L : List α} {x : α}
    (h : List.Sublist l L) (hx : x ∉ l) : List.Sublist l (L.erase x) := by
  by_cases hm : x ∈ L
  · obtain ⟨L1, L2, hx1, hLeq, hLer⟩ := List.exists_erase_eq hm
    rw [hLer]
    rw [hLeq] at h
    obtain ⟨r1, r2, hl, hr1, hr2⟩ := List.sublist_append_iff.1 h
    rw [hl]
    refine List.Sublist.append hr1 ?_
    rcases r2 with _ | ⟨y, r2t⟩
    · exact List.nil_sublist _
    · have hy : y ∉ [x] := by
        intro hc
        simp only [List.mem_singleton] at hc
        subst hc
        exact hx (by rw [hl]; exact List.mem_append_right _ (List.mem_cons_self _ _))
      exact @sublist_drop_front α y r2t L2 [x] hr2 hy
  · rw [List.erase_of_not_mem hm]
    exact h

/-- A present level-`i` link implies the node exists and has that level. -/
theorem nxt_some_valid {t : SL} {a i q : Nat} (h : t.nxt a i = some q) :
    a < t.heap.length ∧ i < (t.node a).next.length := by
  have hi : i < (t.node a).next.length := by
    by_contra hc
    unfold SL.nxt at h
    rw [List.getD_eq_default _ _ (by omega)] at h
    cases h
  refine ⟨?_, hi⟩
  by_contra hc
  have hnode : t.node a = createNode 0 0 0 := by
    unfold SL.node
    exact List.getD_eq_default _ _ (by omega)
  rw [hnode] at hi
  unfold createNode at hi
  simp at hi

/-- The maximal prefix of the level-`j` chain whose keys are below `K`. -/
def remPre (s : SL) (K : Int) (j : Nat) : List Nat :=
  (sChain s j).takeWhile (fun a => decide (removeCond K (s.node a)))

/-- The rest of the level-`j` chain, starting at the first key not below `K`. -/
def remSuf (s : SL) (K : Int) (j : Nat) : List Nat :=
  (sChain s j).dropWhile (fun a => decide (removeCond K (s.node a)))

/-- The level-`j` chain after `remove(K)`: the head of `remSuf` is unlinked
when its key is exactly `K`. -/
def remNew (s : SL) (K : Int) (j : Nat) : List Nat :=
  match (remSuf s K j).head? with
  | some q => if (s.node q).key = K then remPre s K j ++ (remSuf s K j).tail
      else sChain s j
  | none => sChain s j

/-- Level `j` holds a node that `remove(K)` unlinks. -/
def remMatch (s : SL) (K : Int) (j : Nat) : Prop :=
  ∃ q, (remSuf s K j).head? = some q ∧ (s.node q).key = K

theorem remPre_append_remSuf (s : SL) (K : Int) (j : Nat) :
    remPre s K j ++ remSuf s K j = sChain s j :=
  List.takeWhile_append_dropWhile _ _

theorem remPre_key_lt {s : SL} {K : Int} {j : Nat} :
    ∀ a ∈ remPre s K j, (s.node a).key < K := by
  intro a ha
  have h1 := List.mem_takeWhile_imp ha
  rw [decide_eq_true_eq] at h1
  exact removeCond_iff.1 h1

theorem remSuf_sublist (s : SL) (K : Int) (j : Nat) :
    List.Sublist (remSuf s K j) (sChain s j) :=
  List.dropWhile_sublist _

theorem remSuf_head_ge {s : SL} {K : Int} {j q : Nat}
    (h : (remSuf s K j).head? = some q) : K ≤ (s.node q).key := by
  have hhead := List.head?_dropWhile_not
    (fun a => decide (removeCond K (s.node a))) (sChain s j)
  rcases hD : remSuf s K j with _ | ⟨b, rest⟩
  · rw [hD] at h
    cases h
  · rw [hD, List.head?_cons] at h
    injection h with he
    unfold remSuf at hD
    rw [hD] at hhead
    simp only [List.head?_cons] at hhead
    have hb := of_decide_eq_false hhead
    rw [removeCond_iff] at hb
    rw [← he]
    omega

theorem remSuf_head_mem {s : SL} {K : Int} {j q : Nat}
    (h : (remSuf s K j).head? = some q) : q ∈ sChain s j := by
  rcases hD : remSuf s K j with _ | ⟨b, rest⟩
  · rw [hD] at h
    cases h
  · rw [hD, List.head?_cons] at h
    injection h with he
    have hb : b ∈ sChain s j :=
      (remSuf_sublist s K j).mem (by rw [hD]; exact List.mem_cons_self _ _)
    rwa [he] at hb

theorem remSuf_cons {s : SL} {K : Int} {j q : Nat}
    (hq : (remSuf s K j).head? = some q) :
    remSuf s K j = q :: (remSuf s K j).tail ∧
    sChain s j = remPre s K j ++ q :: (remSuf s K j).tail := by
  rcases hD : remSuf s K j with _ | ⟨b, rest⟩
  · rw [hD] at hq
    cases hq
  · rw [hD, List.head?_cons] at hq
    injection hq with he
    constructor
    · rw [List.tail_cons, he]
    · rw [← remPre_append_remSuf s K j, hD, List.tail_cons, he]

/-- A stored key equal to `K` on a sorted chain makes the level match. -/
theorem remMatch_of_mem {s : SL} (hwf : WF s) {K : Int} {j b : Nat}
    (hb : b ∈ sChain s j) (hkb : (s.node b).key = K) : remMatch s K j := by
  have hbp : b ∉ remPre s K j := by
    intro hm
    have := remPre_key_lt b hm
    omega
  have hbs : b ∈ remSuf s K j := by
    have h2 : b ∈ remPre s K j ++ remSuf s K j := by
      rw [remPre_append_remSuf]
      exact hb
    rcases List.mem_append.1 h2 with hm | hm
    · exact absurd hm hbp
    · exact hm
  rcases hD : remSuf s K j with _ | ⟨q, rest⟩
  · rw [hD] at hbs
    cases hbs
  · refine ⟨q, by rw [hD, List.head?_cons], ?_⟩
    have hge : K ≤ (s.node q).key := remSuf_head_ge (by rw [hD, List.head?_cons])
    have hle : (s.node q).key ≤ (s.node b).key ∨ q = b := by
      rw [hD] at hbs
      rcases List.mem_cons.1 hbs with rfl | hbt
      · exact Or.inr rfl
      · left
        have hps : List.Pairwise (fun a b => (s.node a).key ≤ (s.node b).key)
            (remSuf s K j) :=
          List.Pairwise.sublist (remSuf_sublist s K j) (hwf.sorted_chain j)
        rw [hD] at hps
        exact (List.pairwise_cons.1 hps).1 b hbt
    rcases hle with hle | heq
    · omega
    · rw [heq]
      exact hkb

theorem remMatch_zero {s : SL} (hwf : WF s) {K : Int} {j : Nat}
    (h : remMatch s K j) : remMatch s K 0 := by
  obtain ⟨q, hq, hk⟩ := h
  exact remMatch_of_mem hwf (hwf.mem_zero j q (remSuf_head_mem hq)) hk

theorem remNew_eq_erase {s : SL} {K : Int} {j q : Nat}
    (hq : (remSuf s K j).head? = some q) (hk : (s.node q).key = K) :
    remNew s K j = (sChain s j).erase q := by
  have hqp : q ∉ remPre s K j := by
    intro hm
    have := remPre_key_lt q hm
    omega
  obtain ⟨-, hsplit⟩ := remSuf_cons hq
  unfold remNew
  rw [hq]
  show (if (s.node q).key = K then remPre s K j ++ (remSuf s K j).tail
      else sChain s j) = (sChain s j).erase q
  rw [if_pos hk, hsplit, List.erase_append_right _ hqp, List.erase_cons_head]

theorem remNew_eq_self {s : SL} {K : Int} {j : Nat} (h : ¬ remMatch s K j) :
    remNew s K j = sChain s j := by
  unfold remNew
  rcases hD : (remSuf s K j).head? with _ | q
  · rfl
  · show (if (s.node q).key = K then remPre s K j ++ (remSuf s K j).tail
        else sChain s j) = sChain s j
    rw [if_neg (fun hc => h ⟨q, hD, hc⟩)]

theorem remNew_sublist (s : SL) (K : Int) (j : Nat) :
    List.Sublist (remNew s K j) (sChain s j) := by
  unfold remNew
  rcases hD : (remSuf s K j).head? with _ | q
  · exact List.Sublist.refl _
  · show List.Sublist (if (s.node q).key = K then remPre s K j ++ (remSuf s K j).tail
        else sChain s j) (sChain s j)
    by_cases hk : (s.node q).key = K
    · rw [if_pos hk, (remSuf_cons hD).2]
      exact (List.Sublist.refl _).append (List.sublist_cons_self _ _)
    · rw [if_neg hk]

/-- Unlinking the node after the end of `A` from a level-`i` chain
(`p->level[i].next = p->level[i].next->level[i].next`). -/
theorem chainIs_unlink {t : SL} {i : Nat} :
    ∀ {a : Nat} {A B : List Nat} {q : Nat},
      chainIs t i a (A ++ q :: B) → (a :: (A ++ q :: B)).Nodup →
      chainIs (t.setNext ((a :: A).getLast (List.cons_ne_nil _ _)) i (t.nxt q i)) i a
        (A ++ B)
  | a, [], B, q, hch, hnd => by
      simp only [List.nil_append] at hch hnd ⊢
      unfold chainIs at hch
      obtain ⟨haq, hchB⟩ := hch
      have hval := nxt_some_valid haq
      show chainIs (t.setNext a i (t.nxt q i)) i a B
      have hanB : a ∉ q :: B := (List.nodup_cons.1 hnd).1
      rcases B with _ | ⟨b, B2⟩
      · unfold chainIs at hchB ⊢
        rw [t.nxt_setNext_self _ hval.1 hval.2]
        exact hchB
      · unfold chainIs at hchB ⊢
        refine ⟨?_, ?_⟩
        · rw [t.nxt_setNext_self _ hval.1 hval.2]
          exact hchB.1
        · refine (chainIs_setNext_notMem ?_).2 hchB.2
          intro hm
          exact hanB (List.mem_cons_of_mem _ hm)
  | a, x :: A2, B, q, hch, hnd => by
      rw [List.cons_append] at hch hnd
      unfold chainIs at hch
      obtain ⟨hax, hch2⟩ := hch
      have hrec := chainIs_unlink (a := x) (A := A2) (B := B) (q := q) hch2
        (List.nodup_cons.1 hnd).2
      have hgl : ((a :: x :: A2).getLast (List.cons_ne_nil _ _)) =
          ((x :: A2).getLast (List.cons_ne_nil _ _)) := List.getLast_cons _
      rw [hgl, List.cons_append]
      unfold chainIs
      refine ⟨?_, hrec⟩
      have hglmem : (x :: A2).getLast (List.cons_ne_nil _ _) ∈ x :: A2 :=
        List.getLast_mem _
      have hane : a ≠ (x :: A2).getLast (List.cons_ne_nil _ _) := by
        intro he
        have ham : a ∈ x :: (A2 ++ q :: B) := by
          rw [he]
          rcases List.mem_cons.1 hglmem with h1 | h1
          · rw [h1]
            exact List.mem_cons_self _ _
          · exact List.mem_cons_of_mem _ (List.mem_append_left _ h1)
        exact (List.nodup_cons.1 hnd).1 ham
      rw [t.nxt_setNext_ne _ (Or.inl hane)]
      exact hax

/-- Where the `remove` advance at one level stops, relative to the whole-chain
`takeWhile`/`dropWhile` split. -/
theorem rem_split {s : SL} (hwf : WF s) {K : Int} {c p : Nat}
    {pre suf : List Nat} (hsplit : 0 :: sChain s c = pre ++ p :: suf)
    (hpc : p = 0 ∨ removeCond K (s.node p)) :
    remSuf s K c = suf.dropWhile (fun a => decide (removeCond K (s.node a))) ∧
    (0 :: remPre s K c).getLast? =
      (p :: suf.takeWhile (fun a => decide (removeCond K (s.node a)))).getLast? := by
  rcases pre with _ | ⟨c0, pre2⟩
  · rw [List.nil_append, List.cons.injEq] at hsplit
    obtain ⟨hp0, hcs⟩ := hsplit
    constructor
    · unfold remSuf
      rw [hcs]
    · unfold remPre
      rw [hcs, ← hp0]
  · rw [List.cons_append, List.cons.injEq] at hsplit
    obtain ⟨hc0, hcs⟩ := hsplit
    have hp0 : p ≠ 0 := by
      intro he
      subst he
      have hnd := hwf.nodup0 c
      have h0m : (0 : Nat) ∈ sChain s c := by
        rw [hcs]
        exact List.mem_append_right _ (List.mem_cons_self _ _)
      exact (List.nodup_cons.1 hnd).1 h0m
    have hpcond : removeCond K (s.node p) := by
      rcases hpc with he | h
      · exact absurd he hp0
      · exact h
    have hsorted := hwf.sorted_chain c
    rw [hcs] at hsorted
    obtain ⟨hsPre, hsRest, hsX⟩ := List.pairwise_append.1 hsorted
    have hall : ∀ a ∈ pre2 ++ [p],
        (fun a => decide (removeCond K (s.node a))) a = true := by
      intro a ha
      rcases List.mem_append.1 ha with hm | hm
      · refine decide_eq_true ?_
        rw [removeCond_iff]
        have h1 := hsX a hm p (List.mem_cons_self _ _)
        have h2 := removeCond_iff.1 hpcond
        omega
      · simp only [List.mem_singleton] at hm
        subst hm
        exact decide_eq_true hpcond
    have hre : pre2 ++ p :: suf = (pre2 ++ [p]) ++ suf := by
      rw [List.append_assoc]
      rfl
    constructor
    · unfold remSuf
      rw [hcs, hre]
      exact dropWhile_append_all hall
    · unfold remPre
      rw [hcs, hre, takeWhile_append_all hall, List.append_assoc,
        List.singleton_append, ← List.cons_append]
      exact List.getLast?_append_of_ne_nil _ (List.cons_ne_nil _ _)

/-- The level loop of `remove`: levels `c - 1` down to `0` of the original
chains are rewritten to `remNew`; the recorded node and value are those of the
level-0 match, if any. -/
theorem removeLoop_spec {s : SL} (hwf : WF s) (K : Int) :
    ∀ (c : Nat) (t : SL) (p : Nat) (dn : Option Nat) (v : Int), c ≤ MAX_LEVEL →
      InsStatic s t →
      (∀ j, j < c → ∀ a, t.nxt a j = s.nxt a j) →
      p ∈ 0 :: sChain s c →
      (p = 0 ∨ removeCond K (s.node p)) →
      (∀ j, j < c → chainIs (removeLoop K t p dn v c).1 j 0 (remNew s K j)) ∧
      (∀ j, c ≤ j → ∀ a, (removeLoop K t p dn v c).1.nxt a j = t.nxt a j) ∧
      InsStatic s (removeLoop K t p dn v c).1 ∧
      (∀ q0, 0 < c → (remSuf s K 0).head? = some q0 → (s.node q0).key = K →
        (removeLoop K t p dn v c).2.1 = some q0 ∧
        (removeLoop K t p dn v c).2.2 = (s.node q0).value) ∧
      ((c = 0 ∨ ¬ remMatch s K 0) →
        (removeLoop K t p dn v c).2.1 = dn ∧ (removeLoop K t p dn v c).2.2 = v) := by
  intro c
  induction c with
  | zero =>
    intro t p dn v _ hstatic _ _ _
    exact ⟨fun j hj => absurd hj (by omega), fun j _ a => rfl, hstatic,
      fun q0 h0 => absurd h0 (by omega), fun _ => ⟨rfl, rfl⟩⟩
  | succ c ih =>
    intro t p dn v hc hstatic hpristine hp hpd
    have hN : t.heap.length = s.heap.length := hstatic.1
    have hnode_keys := hstatic.2.2
    have hpk : p ∈ 0 :: sChain s c := by
      rcases List.mem_cons.1 hp with rfl | hp2
      · exact List.mem_cons_self _ _
      · exact List.mem_cons_of_mem _ ((hwf.sub' c).mem hp2)
    obtain ⟨pre, suf, hsplit, hchain_s⟩ := chainIs_split (hwf.chain_all c) hpk
    have hchain_t : chainIs t c p suf :=
      (chainIs_congr (fun b => hpristine c (by omega) b)).2 hchain_s
    have hlen : suf.length ≤ t.heap.length := by
      have h1 : (0 :: sChain s c).length = pre.length + (suf.length + 1) := by
        rw [hsplit]
        simp
      have h2 := hwf.len_le c
      simp only [List.length_cons] at h1
      omega
    obtain ⟨hgl, hdwc⟩ := advW_split t (removeCond K) c hchain_t hlen
    have hpredeq : ∀ a ∈ suf,
        (decide (removeCond K (t.node a)) : Bool) = decide (removeCond K (s.node a)) := by
      intro a ha
      apply decide_eq_decide.2
      unfold removeCond
      rw [(hnode_keys a).1]
    rw [takeWhile_congr_mem hpredeq] at hgl
    rw [dropWhile_congr_mem hpredeq] at hdwc
    have hglmem : advW t (removeCond K) c p t.heap.length ∈
        p :: suf.takeWhile (fun a => decide (removeCond K (s.node a))) := by
      rw [hgl]
      exact List.getLast_mem _
    have hp'mem : advW t (removeCond K) c p t.heap.length ∈ 0 :: sChain s c := by
      rcases List.mem_cons.1 hglmem with he | hm2
      · rw [he]
        exact hpk
      · have h1 := (List.takeWhile_sublist _).mem hm2
        rw [hsplit]
        exact List.mem_append_right _ (List.mem_cons_of_mem _ h1)
    have hp'disj : advW t (removeCond K) c p t.heap.length = 0 ∨
        removeCond K (s.node (advW t (removeCond K) c p t.heap.length)) := by
      rcases List.mem_cons.1 hglmem with he | hm2
      · rw [he]
        exact hpd
      · right
        have h2 := List.mem_takeWhile_imp hm2
        rwa [decide_eq_true_eq] at h2
    obtain ⟨hsufeq, hlasteq⟩ := rem_split hwf hsplit hpd
    have hlast2 : (0 :: remPre s K c).getLast? =
        some (advW t (removeCond K) c p t.heap.length) := by
      rw [hlasteq, List.getLast?_eq_getLast _ (List.cons_ne_nil _ _), hgl]
    have hdwc2 : chainIs t c (advW t (removeCond K) c p t.heap.length) (remSuf s K c) := by
      rw [hsufeq]
      exact hdwc
    have hstep : removeLoop K t p dn v (c + 1) =
        match t.nxt (advW t (removeCond K) c p t.heap.length) c with
        | some q =>
          if comparator_ (t.node q).key K = 0 then
            removeLoop K
              (t.setNext (advW t (removeCond K) c p t.heap.length) c (t.nxt q c))
              (advW t (removeCond K) c p t.heap.length) (some q) (t.node q).value c
          else
            removeLoop K t (advW t (removeCond K) c p t.heap.length) dn v c
        | none => removeLoop K t (advW t (removeCond K) c p t.heap.length) dn v c := rfl
    rcases hq : t.nxt (advW t (removeCond K) c p t.heap.length) c with _ | q
    · -- the advance ran off the chain: nothing to unlink at this level
      have heq0 : removeLoop K t p dn v (c + 1) =
          removeLoop K t (advW t (removeCond K) c p t.heap.length) dn v c := by
        rw [hstep, hq]
      have hsufnil : remSuf s K c = [] := by
        rcases hD : remSuf s K c with _ | ⟨b, rest⟩
        · rfl
        · rw [hD] at hdwc2
          unfold chainIs at hdwc2
          rw [hdwc2.1] at hq
          cases hq
      have hnomatch : ¬ remMatch s K c := by
        intro hmm
        obtain ⟨q2, hq2, -⟩ := hmm
        rw [hsufnil] at hq2
        cases hq2
      obtain ⟨ih1, ih2, ih3, ih4, ih5⟩ := ih t (advW t (removeCond K) c p t.heap.length)
        dn v (by omega) hstatic (fun j hj a => hpristine j (by omega) a) hp'mem hp'disj
      rw [heq0]
      refine ⟨?_, ?_, ih3, ?_, ?_⟩
      · intro j hj
        rcases Nat.lt_or_ge j c with hjc | hjc
        · exact ih1 j hjc
        · obtain rfl : j = c := by omega
          rw [remNew_eq_self hnomatch]
          refine (chainIs_congr (fun b => ?_)).2 (hwf.chain_all j)
          rw [ih2 j (le_refl _) b]
          exact hpristine j (by omega) b
      · intro j hj a
        exact ih2 j (by omega) a
      · intro q0 h0 hq0 hk0
        rcases Nat.eq_zero_or_pos c with rfl | hcpos
        · exact absurd ⟨q0, hq0, hk0⟩ hnomatch
        · exact ih4 q0 hcpos hq0 hk0
      · intro hdisj
        refine ih5 (Or.inr ?_)
        rcases hdisj with hc0 | hnm
        · exact absurd hc0 (by omega)
        · exact hnm
    · -- a next node exists; `q` heads the not-below-`K` suffix
      have hqhead : (remSuf s K c).head? = some q := by
        rcases hD : remSuf s K c with _ | ⟨b, rest⟩
        · rw [hD] at hdwc2
          unfold chainIs at hdwc2
          rw [hdwc2] at hq
          cases hq
        · rw [hD] at hdwc2
          unfold chainIs at hdwc2
          rw [hdwc2.1] at hq
          rw [List.head?_cons]
          injection hq with he
          rw [he]
      have hqmem : q ∈ sChain s c := remSuf_head_mem hqhead
      have heq1 : removeLoop K t p dn v (c + 1) =
          (if comparator_ (t.node q).key K = 0 then
            removeLoop K
              (t.setNext (advW t (removeCond K) c p t.heap.length) c (t.nxt q c))
              (advW t (removeCond K) c p t.heap.length) (some q) (t.node q).value c
          else
            removeLoop K t (advW t (removeCond K) c p t.heap.length) dn v c) := by
        rw [hstep, hq]
      by_cases hcmp : comparator_ (t.node q).key K = 0
      · -- unlink `q` at this level
        have hkeyq : (s.node q).key = K := by
          have h1 := comparator_eq_zero_iff.1 hcmp
          rwa [(hnode_keys q).1] at h1
        rw [heq1, if_pos hcmp]
        have hstatic2 : InsStatic s
            (t.setNext (advW t (removeCond K) c p t.heap.length) c (t.nxt q c)) :=
          hstatic.trans_setNext _ _ _
        have hpristine2 : ∀ j, j < c → ∀ a,
            (t.setNext (advW t (removeCond K) c p t.heap.length) c (t.nxt q c)).nxt a j =
              s.nxt a j := by
          intro j hj a
          rw [SL.nxt_setNext_ne _ _ (Or.inr (by omega))]
          exact hpristine j (by omega) a
        obtain ⟨ih1, ih2, ih3, ih4, ih5⟩ := ih
          (t.setNext (advW t (removeCond K) c p t.heap.length) c (t.nxt q c))
          (advW t (removeCond K) c p t.heap.length) (some q) (t.node q).value
          (by omega) hstatic2 hpristine2 hp'mem hp'disj
        have hremnew : remNew s K c = remPre s K c ++ (remSuf s K c).tail := by
          unfold remNew
          rw [hqhead]
          show (if (s.node q).key = K then remPre s K c ++ (remSuf s K c).tail
              else sChain s c) = remPre s K c ++ (remSuf s K c).tail
          rw [if_pos hkeyq]
        refine ⟨?_, ?_, ih3, ?_, ?_⟩
        · intro j hj
          rcases Nat.lt_or_ge j c with hjc | hjc
          · exact ih1 j hjc
          · obtain rfl : j = c := by omega
            rw [hremnew]
            have hchain_t0 : chainIs t j 0 (sChain s j) :=
              (chainIs_congr (fun b => hpristine j (by omega) b)).2 (hwf.chain_all j)
            have hchain_t1 : chainIs t j 0 (remPre s K j ++ q :: (remSuf s K j).tail) := by
              rw [← (remSuf_cons hqhead).2]
              exact hchain_t0
            have hnd1 : ((0 : Nat) :: (remPre s K j ++ q :: (remSuf s K j).tail)).Nodup := by
              rw [← (remSuf_cons hqhead).2]
              exact hwf.nodup0 j
            have hun := chainIs_unlink hchain_t1 hnd1
            have hgleq : (0 :: remPre s K j).getLast (List.cons_ne_nil _ _) =
                advW t (removeCond K) j p t.heap.length := by
              have h1 := hlast2
              rw [List.getLast?_eq_getLast (0 :: remPre s K j) (List.cons_ne_nil _ _)] at h1
              injection h1
            rw [hgleq] at hun
            refine (chainIs_congr (fun b => ?_)).2 hun
            exact ih2 j (le_refl _) b
        · intro j hj a
          rw [ih2 j (by omega) a, SL.nxt_setNext_ne _ _ (Or.inr (by omega))]
        · intro q0 h0 hq0 hk0
          rcases Nat.eq_zero_or_pos c with rfl | hcpos
          · have hqq0 : q = q0 := by
              rw [hqhead] at hq0
              injection hq0
            obtain ⟨ih5a, ih5b⟩ := ih5 (Or.inl rfl)
            rw [ih5a, ih5b, (hnode_keys q).2.1, hqq0]
            exact ⟨rfl, rfl⟩
          · exact ih4 q0 hcpos hq0 hk0
        · intro hdisj
          rcases hdisj with hc0 | hnm
          · exact absurd hc0 (by omega)
          · exact absurd (remMatch_zero hwf ⟨q, hqhead, hkeyq⟩) hnm
      · -- `q`'s key is not `K`: nothing to unlink at this level
        have hknot : (s.node q).key ≠ K := by
          intro hk2
          refine hcmp (comparator_eq_zero_iff.2 ?_)
          rw [(hnode_keys q).1]
          exact hk2
        have hnomatch : ¬ remMatch s K c := by
          intro hmm
          obtain ⟨q2, hq2, hk2⟩ := hmm
          rw [hqhead] at hq2
          injection hq2 with he
          rw [← he] at hk2
          exact hknot hk2
        rw [heq1, if_neg hcmp]
        obtain ⟨ih1, ih2, ih3, ih4, ih5⟩ := ih t (advW t (removeCond K) c p t.heap.length)
          dn v (by omega) hstatic (fun j hj a => hpristine j (by omega) a) hp'mem hp'disj
        refine ⟨?_, ?_, ih3, ?_, ?_⟩
        · intro j hj
          rcases Nat.lt_or_ge j c with hjc | hjc
          · exact ih1 j hjc
          · obtain rfl : j = c := by omega
            rw [remNew_eq_self hnomatch]
            refine (chainIs_congr (fun b => ?_)).2 (hwf.chain_all j)
            rw [ih2 j (le_refl _) b]
            exact hpristine j (by omega) b
        · intro j hj a
          exact ih2 j (by omega) a
        · intro q0 h0 hq0 hk0
          rcases Nat.eq_zero_or_pos c with rfl | hcpos
          · have hqq0 : q = q0 := by
              rw [hqhead] at hq0
              injection hq0
            rw [hqq0] at hknot
            exact absurd hk0 hknot
          · exact ih4 q0 hcpos hq0 hk0
        · intro hdisj
          refine ih5 (Or.inr ?_)
          rcases hdisj with hc0 | hnm
          · exact absurd hc0 (by omega)
          · exact hnm

theorem remMatch_iff_hasKey {s : SL} (hwf : WF s) (K : Int) :
    remMatch s K 0 ↔ hasKey s K := by
  constructor
  · intro hmm
    obtain ⟨q, hq, hk⟩ := hmm
    exact ⟨q, remSuf_head_mem hq, hk⟩
  · intro hk
    obtain ⟨a, ha, hka⟩ := hk
    exact remMatch_of_mem hwf ha hka

/-- The rewritten chains are still sublists level-to-level, even when the node
unlinked at the upper level differs from the one unlinked at the lower level
(possible with duplicate keys). -/
theorem remNew_sub {s : SL} (hwf : WF s) (K : Int) (i : Nat) :
    List.Sublist (remNew s K (i + 1)) (remNew s K i) := by
  by_cases hm1 : remMatch s K (i + 1)
  · obtain ⟨q1, hq1, hk1⟩ := hm1
    have hq1mem : q1 ∈ sChain s (i + 1) := remSuf_head_mem hq1
    obtain ⟨q0, hq0, hk0⟩ := remMatch_of_mem hwf ((hwf.sub' i).mem hq1mem) hk1
    rw [remNew_eq_erase hq1 hk1, remNew_eq_erase hq0 hk0]
    by_cases hqq : q1 = q0
    · rw [hqq]
      exact List.Sublist.erase q0 (hwf.sub' i)
    · have hq0notmem : q0 ∉ sChain s (i + 1) := by
        intro hmem
        obtain ⟨hsuf1, hsplit1⟩ := remSuf_cons hq1
        obtain ⟨hsuf0, hsplit0⟩ := remSuf_cons hq0
        have hq0insuf : q0 ∈ remSuf s K (i + 1) := by
          have h2 : q0 ∈ remPre s K (i + 1) ++ remSuf s K (i + 1) := by
            rw [remPre_append_remSuf]
            exact hmem
          rcases List.mem_append.1 h2 with hmm | hmm
          · have := remPre_key_lt q0 hmm
            omega
          · exact hmm
        have hq0tail : q0 ∈ (remSuf s K (i + 1)).tail := by
          rw [hsuf1] at hq0insuf
          rcases List.mem_cons.1 hq0insuf with he | hmm
          · exact absurd he.symm hqq
          · exact hmm
        have hsub := hwf.sub' i
        rw [hsplit1, hsplit0] at hsub
        have hsufsub : List.Sublist (q1 :: (remSuf s K (i + 1)).tail)
            (remPre s K i ++ q0 :: (remSuf s K i).tail) :=
          (List.sublist_append_right _ _).trans hsub
        have hq1notP0 : q1 ∉ remPre s K i := by
          intro hmm
          have := remPre_key_lt q1 hmm
          omega
        have h3 : List.Sublist (q1 :: (remSuf s K (i + 1)).tail)
            (q0 :: (remSuf s K i).tail) :=
          sublist_drop_front hsufsub hq1notP0
        have h4 : List.Sublist (q1 :: (remSuf s K (i + 1)).tail)
            ((remSuf s K i).tail) :=
          sublist_cons_strip h3 hqq
        have hq0inR0 : q0 ∈ (remSuf s K i).tail :=
          h4.mem (List.mem_cons_of_mem _ hq0tail)
        have hndi := (List.nodup_cons.1 (hwf.nodup0 i)).2
        rw [hsplit0] at hndi
        have hnd2 := List.nodup_middle.1 hndi
        exact (List.nodup_cons.1 hnd2).1 (List.mem_append_right _ hq0inR0)
      have e1 : List.Sublist ((sChain s (i + 1)).erase q1) (sChain s i) :=
        (List.erase_sublist _ _).trans (hwf.sub' i)
      refine sublist_erase_right e1 ?_
      intro hmm
      exact hq0notmem (List.mem_of_mem_erase hmm)
  · rw [remNew_eq_self hm1]
    by_cases hm0 : remMatch s K i
    · obtain ⟨q0, hq0, hk0⟩ := hm0
      rw [remNew_eq_erase hq0 hk0]
      refine sublist_erase_right (hwf.sub' i) ?_
      intro hmm
      exact hm1 (remMatch_of_mem hwf hmm hk0)
    · rw [remNew_eq_self hm0]
      exact hwf.sub' i

/-- Full characterisation of `remove`: per-level chain rewrites, unchanged
node contents, preserved well-formedness, and the returned value. -/
theorem remove_main {s : SL} (hwf : WF s) (K : Int) :
    (s.remove K).2.heap.length = s.heap.length ∧
    (s.remove K).2.maxLevel_ = s.maxLevel_ ∧
    (∀ a, ((s.remove K).2.node a).key = (s.node a).key ∧
      ((s.remove K).2.node a).value = (s.node a).value ∧
      ((s.remove K).2.node a).next.length = (s.node a).next.length) ∧
    (∀ j, sChain (s.remove K).2 j = remNew s K j) ∧
    WF (s.remove K).2 ∧
    (∀ q, (remSuf s K 0).head? = some q → (s.node q).key = K →
      (s.remove K).1 = (s.node q).value) ∧
    (¬ hasKey s K → (s.remove K).1 = -1) := by
  obtain ⟨h1, h2, h3, h4, h5⟩ := removeLoop_spec hwf K s.maxLevel_ s 0 none (-1)
    hwf.hml ⟨rfl, rfl, fun a => ⟨rfl, rfl, rfl⟩⟩ (fun j hj a => rfl)
    (List.mem_cons_self _ _) (Or.inl rfl)
  have hrdef : s.remove K = ((removeLoop K s 0 none (-1) s.maxLevel_).2.2,
      (removeLoop K s 0 none (-1) s.maxLevel_).1) := rfl
  rw [hrdef]
  have hchains : ∀ j,
      sChain (removeLoop K s 0 none (-1) s.maxLevel_).1 j = remNew s K j ∧
      chainIs (removeLoop K s 0 none (-1) s.maxLevel_).1 j 0 (remNew s K j) := by
    intro j
    rcases Nat.lt_or_ge j s.maxLevel_ with hj | hj
    · have hch := h1 j hj
      refine ⟨sChain_eq_of_chainIs hch ?_, hch⟩
      rw [h3.1]
      exact le_trans (List.Sublist.length_le (remNew_sublist s K j)) (hwf.len_le j)
    · have hchainj : sChain s j = [] := by
        rcases Nat.lt_or_ge j MAX_LEVEL with h | h
        · exact hwf.hhigh j h hj
        · exact sChain_of_height_le (by rw [hwf.hht]; omega)
      have hre : remNew s K j = sChain s j := by
        refine remNew_eq_self ?_
        intro hmm
        obtain ⟨q, hq, -⟩ := hmm
        unfold remSuf at hq
        rw [hchainj] at hq
        cases hq
      have hch : chainIs (removeLoop K s 0 none (-1) s.maxLevel_).1 j 0 (sChain s j) := by
        refine (chainIs_congr (fun b => ?_)).2 (hwf.chain_all j)
        exact h2 j hj b
      rw [hre]
      refine ⟨sChain_eq_of_chainIs hch ?_, hch⟩
      rw [h3.1]
      exact hwf.len_le j
  have hmemnew : ∀ j, ∀ a ∈ remNew s K j, a ∈ sChain s j :=
    fun j a ha => (remNew_sublist s K j).mem ha
  have hwfu : WF (removeLoop K s 0 none (-1) s.maxLevel_).1 := by
    refine ⟨?_, ?_, ?_, ?_, ?_, ?_, ?_, ?_, ?_, ?_, ?_, ?_⟩
    · rw [h3.1]
      exact hwf.hlen
    · rw [(h3.2.2 0).1]
      exact hwf.hkey
    · rw [(h3.2.2 0).2.2]
      exact hwf.hht
    · rw [h3.2.1]
      exact hwf.hml
    · intro i hi
      rw [(hchains i).1]
      exact (hchains i).2
    · intro i hi a ha
      rw [(hchains i).1] at ha
      rw [h3.1]
      exact hwf.valid0 (hmemnew i a ha)
    · intro i hi
      rw [(hchains i).1]
      exact List.Nodup.sublist (remNew_sublist s K i) (hwf.hnd i hi)
    · intro i hi hml
      rw [h3.2.1] at hml
      rw [(hchains i).1]
      have he := hwf.hhigh i hi hml
      have hsub := remNew_sublist s K i
      rw [he] at hsub
      exact List.sublist_nil.1 hsub
    · intro i hi
      rw [(hchains i).1, (hchains (i + 1)).1]
      exact remNew_sub hwf K i
    · intro i hi a ha
      rw [(hchains i).1] at ha
      rw [(h3.2.2 a).2.2]
      exact hwf.hheight i hi a (hmemnew i a ha)
    · intro i hi
      rw [(hchains i).1]
      have hp := List.Pairwise.sublist (remNew_sublist s K i) (hwf.hsort i hi)
      refine hp.imp_of_mem ?_
      intro a b ha hb hle
      rw [(h3.2.2 a).1, (h3.2.2 b).1]
      exact hle
    · intro a ha
      rw [(hchains 0).1] at ha
      rw [(h3.2.2 a).1]
      exact hwf.hkmin a (hmemnew 0 a ha)
  refine ⟨h3.1, h3.2.1, h3.2.2, fun j => (hchains j).1, hwfu, ?_, ?_⟩
  · intro q hq hk
    have hmlpos : 0 < s.maxLevel_ := by
      by_contra hc
      have hqm := remSuf_head_mem hq
      rw [hwf.hhigh 0 (by unfold MAX_LEVEL; omega) (by omega)] at hqm
      cases hqm
    exact (h4 q hmlpos hq hk).2
  · intro hnk
    refine (h5 (Or.inr ?_)).2
    intro hmm
    exact hnk ((remMatch_iff_hasKey hwf K).1 hmm)

/-! ## `clear` -/

theorem InsStatic_refl (t : SL) : InsStatic t t := ⟨rfl, rfl, fun a => ⟨rfl, rfl, rfl⟩⟩

theorem InsStatic.trans {a b c : SL} (h1 : InsStatic a b) (h2 : InsStatic b c) :
    InsStatic a c := by
  obtain ⟨x1, x2, x3⟩ := h1
  obtain ⟨y1, y2, y3⟩ := h2
  refine ⟨by rw [y1, x1], by rw [y2, x2], fun v => ?_⟩
  obtain ⟨k1, k2, k3⟩ := x3 v
  obtain ⟨m1, m2, m3⟩ := y3 v
  exact ⟨by rw [m1, k1], by rw [m2, k2], by rw [m3, k3]⟩

/-- One step of `clear`'s inner loop drops the head of the level-`i` chain. -/
theorem clearOnce_spec {t : SL} {i : Nat} {C : List Nat}
    (hch : chainIs t i 0 C) (hnd : (0 :: C).Nodup) :
    chainIs (clearOnce t i) i 0 C.tail ∧
    InsStatic t (clearOnce t i) ∧
    (∀ a j, ¬ (a = 0 ∧ j = i) → (clearOnce t i).nxt a j = t.nxt a j) := by
  unfold clearOnce
  rcases hq : t.nxt 0 i with _ | q
  · have hC : C = [] := by
      rcases C with _ | ⟨c0, rest⟩
      · rfl
      · unfold chainIs at hch
        rw [hch.1] at hq
        cases hq
    subst hC
    refine ⟨?_, InsStatic_refl t, fun a j _ => rfl⟩
    show chainIs t i 0 []
    unfold chainIs
    exact hq
  · rcases C with _ | ⟨c0, rest⟩
    · unfold chainIs at hch
      rw [hch] at hq
      cases hq
    · unfold chainIs at hch
      obtain ⟨h1, h2⟩ := hch
      rw [h1] at hq
      obtain rfl : q = c0 := by
        injection hq with he
        exact he.symm
      have hval := nxt_some_valid h1
      refine ⟨?_, (InsStatic_refl t).trans_setNext 0 i _, ?_⟩
      · show chainIs (t.setNext 0 i (t.nxt q i)) i 0 (q :: rest).tail
        rw [List.tail_cons]
        have h0notin : (0 : Nat) ∉ q :: rest := (List.nodup_cons.1 hnd).1
        rcases rest with _ | ⟨b, rest2⟩
        · unfold chainIs at h2 ⊢
          rw [t.nxt_setNext_self _ hval.1 hval.2]
          exact h2
        · unfold chainIs at h2 ⊢
          refine ⟨?_, ?_⟩
          · rw [t.nxt_setNext_self _ hval.1 hval.2]
            exact h2.1
          · refine (chainIs_setNext_notMem ?_).2 h2.2
            intro hm
            exact h0notin (List.mem_cons_of_mem _ hm)
      · intro a j hne
        refine t.nxt_setNext_ne _ ?_
        by_cases ha : a = 0
        · right
          intro hji
          exact hne ⟨ha, hji⟩
        · left
          exact ha

/-- The inner `for` loop of `clear` drops the head of every chain at levels
`i` to `i + c - 1` and touches nothing else. -/
theorem clearPass_spec :
    ∀ (c i : Nat) (t : SL) (C : Nat → List Nat),
      (∀ j, chainIs t j 0 (C j)) →
      (∀ j, (0 :: C j).Nodup) →
      (∀ j, chainIs (clearPass t i c) j 0
        (if i ≤ j ∧ j < i + c then (C j).tail else C j)) ∧
      InsStatic t (clearPass t i c) ∧
      (∀ a j, ¬ (a = 0 ∧ i ≤ j ∧ j < i + c) → (clearPass t i c).nxt a j = t.nxt a j)
  | 0, i, t, C, hch, hnd => by
      refine ⟨fun j => ?_, InsStatic_refl t, fun a j _ => rfl⟩
      rw [if_neg (by omega)]
      exact hch j
  | c + 1, i, t, C, hch, hnd => by
      obtain ⟨ho1, ho2, ho3⟩ := clearOnce_spec (hch i) (hnd i)
      have hch1 : ∀ j, chainIs (clearOnce t i) j 0
          (if j = i then (C i).tail else C j) := by
        intro j
        by_cases hji : j = i
        · rw [if_pos hji, hji]
          exact ho1
        · rw [if_neg hji]
          refine (chainIs_congr (fun b => ?_)).2 (hch j)
          exact ho3 b j (fun hc => hji hc.2)
      have hnd1 : ∀ j, (0 :: (if j = i then (C i).tail else C j)).Nodup := by
        intro j
        by_cases hji : j = i
        · rw [if_pos hji]
          refine List.Nodup.sublist ?_ (hnd i)
          exact List.cons_sublist_cons.2 (List.tail_sublist _)
        · rw [if_neg hji]
          exact hnd j
      obtain ⟨hp1, hp2, hp3⟩ := clearPass_spec c (i + 1) (clearOnce t i) _ hch1 hnd1
      refine ⟨fun j => ?_, ho2.trans hp2, fun a j hne => ?_⟩
      · have h1 : chainIs (clearPass (clearOnce t i) (i + 1) c) j 0
            (if i + 1 ≤ j ∧ j < i + 1 + c then (if j = i then (C i).tail else C j).tail
              else (if j = i then (C i).tail else C j)) := hp1 j
        by_cases hji : j = i
        · subst hji
          rw [if_neg (by omega), if_pos rfl] at h1
          rw [if_pos (by omega)]
          exact h1
        · by_cases hrange : i + 1 ≤ j ∧ j < i + 1 + c
          · rw [if_pos hrange, if_neg hji] at h1
            rw [if_pos (by omega)]
            exact h1
          · rw [if_neg hrange, if_neg hji] at h1
            rw [if_neg (by omega)]
            exact h1
      · have h2 := hp3 a j (fun hc => hne ⟨hc.1, by omega, by omega⟩)
        show (clearPass (clearOnce t i) (i + 1) c).nxt a j = t.nxt a j
        rw [h2]
        exact ho3 a j (fun hc => hne ⟨hc.1, by omega, by omega⟩)

/-- One outer iteration of `clear` drops the head of every chain and keeps the
container well-formed. -/
theorem clearPass_wf {t : SL} (hwf : WF t) :
    WF (clearPass t 0 t.maxLevel_) ∧ InsStatic t (clearPass t 0 t.maxLevel_) ∧
    (∀ j, sChain (clearPass t 0 t.maxLevel_) j = (sChain t j).tail) := by
  obtain ⟨hp1, hp2, hp3⟩ := clearPass_spec t.maxLevel_ 0 t (fun j => sChain t j)
    (fun j => hwf.chain_all j) (fun j => hwf.nodup0 j)
  have hch : ∀ j, chainIs (clearPass t 0 t.maxLevel_) j 0 (sChain t j).tail := by
    intro j
    have h1 : chainIs (clearPass t 0 t.maxLevel_) j 0
        (if 0 ≤ j ∧ j < 0 + t.maxLevel_ then (sChain t j).tail else sChain t j) := hp1 j
    by_cases hj : j < t.maxLevel_
    · rw [if_pos (by omega)] at h1
      exact h1
    · rw [if_neg (by omega)] at h1
      have hempty : sChain t j = [] := by
        rcases Nat.lt_or_ge j MAX_LEVEL with h | h
        · exact hwf.hhigh j h (by omega)
        · exact sChain_of_height_le (by rw [hwf.hht]; omega)
      rw [hempty] at h1 ⊢
      exact h1
  have hsc : ∀ j, sChain (clearPass t 0 t.maxLevel_) j = (sChain t j).tail := by
    intro j
    refine sChain_eq_of_chainIs (hch j) ?_
    rw [hp2.1]
    exact le_trans (List.Sublist.length_le (List.tail_sublist _)) (hwf.len_le j)
  refine ⟨⟨?_, ?_, ?_, ?_, ?_, ?_, ?_, ?_, ?_, ?_, ?_, ?_⟩, hp2, hsc⟩
  · rw [hp2.1]
    exact hwf.hlen
  · rw [(hp2.2.2 0).1]
    exact hwf.hkey
  · rw [(hp2.2.2 0).2.2]
    exact hwf.hht
  · rw [hp2.2.1]
    exact hwf.hml
  · intro i hi
    rw [hsc i]
    exact hch i
  · intro i hi a ha
    rw [hsc i] at ha
    rw [hp2.1]
    exact hwf.valid0 ((List.tail_sublist _).mem ha)
  · intro i hi
    rw [hsc i]
    exact List.Nodup.sublist (List.tail_sublist _) (hwf.hnd i hi)
  · intro i hi hml
    rw [hp2.2.1] at hml
    rw [hsc i, hwf.hhigh i hi hml]
    rfl
  · intro i hi
    rw [hsc i, hsc (i + 1)]
    exact tail_sublist_tail (hwf.hsub i hi)
  · intro i hi a ha
    rw [hsc i] at ha
    rw [(hp2.2.2 a).2.2]
    exact hwf.hheight i hi a ((List.tail_sublist _).mem ha)
  · intro i hi
    rw [hsc i]
    have hp := List.Pairwise.sublist (List.tail_sublist _) (hwf.hsort i hi)
    refine hp.imp_of_mem ?_
    intro a b ha hb hle
    rw [(hp2.2.2 a).1, (hp2.2.2 b).1]
    exact hle
  · intro a ha
    rw [hsc 0] at ha
    rw [(hp2.2.2 a).1]
    exact hwf.hkmin a ((List.tail_sublist _).mem ha)

/-- The outer `while` loop of `clear` empties every chain, given enough fuel. -/
theorem clearLoop_spec :
    ∀ (f : Nat) (t : SL), WF t → (sChain t 0).length ≤ f →
      WF (clearLoop t f) ∧ InsStatic t (clearLoop t f) ∧
      ∀ j, sChain (clearLoop t f) j = []
  | 0, t, hwf, hlen => by
      have h0 : sChain t 0 = [] := by
        rcases hC : sChain t 0 with _ | ⟨b, r⟩
        · rfl
        · rw [hC] at hlen
          simp at hlen
      refine ⟨hwf, InsStatic_refl t, fun j => ?_⟩
      show sChain t j = []
      have hsub := hwf.sub_le (Nat.zero_le j)
      rw [h0] at hsub
      exact List.sublist_nil.1 hsub
  | f + 1, t, hwf, hlen => by
      have hered : clearLoop t (f + 1) =
          match t.nxt 0 0 with
          | none => t
          | some _ => clearLoop (clearPass t 0 t.maxLevel_) f := rfl
      rcases hq : t.nxt 0 0 with _ | q
      · have h0 : sChain t 0 = [] := by
          rcases hC : sChain t 0 with _ | ⟨b, r⟩
          · rfl
          · have hch := hwf.chain_all 0
            rw [hC] at hch
            unfold chainIs at hch
            rw [hch.1] at hq
            cases hq
        rw [hered, hq]
        refine ⟨hwf, InsStatic_refl t, fun j => ?_⟩
        show sChain t j = []
        have hsub := hwf.sub_le (Nat.zero_le j)
        rw [h0] at hsub
        exact List.sublist_nil.1 hsub
      · obtain ⟨hwf1, hstatic1, hsc1⟩ := clearPass_wf hwf
        have hlen1 : (sChain (clearPass t 0 t.maxLevel_) 0).length ≤ f := by
          rw [hsc1 0]
          rcases hC : sChain t 0 with _ | ⟨b, r⟩
          · have hch := hwf.chain_all 0
            rw [hC] at hch
            unfold chainIs at hch
            rw [hch] at hq
            cases hq
          · rw [hC] at hlen
            simp only [List.length_cons] at hlen
            rw [List.tail_cons]
            omega
        obtain ⟨hwf2, hstatic2, hempty2⟩ :=
          clearLoop_spec f (clearPass t 0 t.maxLevel_) hwf1 hlen1
        rw [hered, hq]
        exact ⟨hwf2, hstatic1.trans hstatic2, hempty2⟩

/-- Full characterisation of `clear`: all chains empty, all head links null,
node contents and the head untouched, well-formedness preserved, idempotent. -/
theorem clear_main {s : SL} (hwf : WF s) :
    WF s.clear ∧
    s.clear.heap.length = s.heap.length ∧
    s.clear.maxLevel_ = s.maxLevel_ ∧
    (∀ a, (s.clear.node a).key = (s.node a).key ∧
      (s.clear.node a).value = (s.node a).value ∧
      (s.clear.node a).next.length = (s.node a).next.length) ∧
    (∀ j, sChain s.clear j = []) ∧
    (∀ i, s.clear.nxt 0 i = none) ∧
    s.clear.clear = s.clear := by
  obtain ⟨hwfc, hstatic, hempty⟩ := clearLoop_spec s.heap.length s hwf (hwf.len_le 0)
  have hcdef : s.clear = clearLoop s s.heap.length := rfl
  rw [hcdef]
  have hnone : ∀ i, (clearLoop s s.heap.length).nxt 0 i = none := by
    intro i
    have hch := hwfc.chain_all i
    rw [hempty i] at hch
    unfold chainIs at hch
    exact hch
  refine ⟨hwfc, hstatic.1, hstatic.2.1, hstatic.2.2, hempty, hnone, ?_⟩
  obtain ⟨f, hf⟩ : ∃ f, (clearLoop s s.heap.length).heap.length = f + 1 :=
    ⟨(clearLoop s s.heap.length).heap.length - 1, by have := hwfc.hlen; omega⟩
  show SL.clear (clearLoop s s.heap.length) = clearLoop s s.heap.length
  unfold SL.clear
  rw [hf]
  have hered : clearLoop (clearLoop s s.heap.length) (f + 1) =
      match (clearLoop s s.heap.length).nxt 0 0 with
      | none => clearLoop s s.heap.length
      | some _ => clearLoop (clearPass (clearLoop s s.heap.length) 0
          (clearLoop s s.heap.length).maxLevel_) f := rfl
  rw [hered, hnone 0]

/-! ## Reachable states are well-formed -/

instance (s : SL) (K : Int) : Decidable (hasKey s K) := by
  unfold hasKey
  infer_instance

theorem Reach_WF : ∀ {s : SL}, Reach s → WF s := by
  intro s h
  induction h with
  | base => exact WF_fresh
  | @ins s2 k v lvl hr h1 h32 hk hv ih =>
    exact (insert_main ih k v lvl h1 h32 hk).2.2.2.2.1
  | @upd s2 k v hr hk hv ih =>
    show WF (s2.update k v).2
    unfold SL.update
    rcases hsn : s2.searchNode k with _ | p
    · exact ih
    · exact ih.setValue p v
  | @rem s2 k hr ih =>
    exact (remove_main ih k).2.2.2.2.1
  | @clr s2 hr ih =>
    exact (clear_main ih).1

/-! ## The claims -/

/-- C3: `update(K, V)` reports success (status `0`) and overwrites the matched
node's value in place — so `search(K)` afterwards returns `V` — exactly when a
node with key `K` exists (the head sentinel included); otherwise it reports
"not found" as the status code `1` and changes nothing. -/
theorem C3_update_status {s : SL} (hwf : WF s) (K V : Int) :
    ((∃ a ∈ 0 :: sChain s 0, (s.node a).key = K) →
      (s.update K V).1 = 0 ∧ (s.update K V).2.search K = V) ∧
    ((¬ ∃ a ∈ 0 :: sChain s 0, (s.node a).key = K) →
      (s.update K V).1 = 1 ∧ (s.update K V).2 = s) :=
  update_char hwf K V

theorem C3_witness :
    WF fresh ∧
    (((∃ a ∈ 0 :: sChain fresh 0, (fresh.node a).key = 5) →
        (fresh.update 5 7).1 = 0 ∧ (fresh.update 5 7).2.search 5 = 7) ∧
      ((¬ ∃ a ∈ 0 :: sChain fresh 0, (fresh.node a).key = 5) →
        (fresh.update 5 7).1 = 1 ∧ (fresh.update 5 7).2 = fresh)) :=
  ⟨WF_fresh, C3_update_status WF_fresh 5 7⟩

/-- C4 (amended): for every key `K` other than the key type's minimum, if no
stored node holds `K` then `search(K)` returns the sentinel `INT_MIN`; at
`K = INT_MIN` the head sentinel matches instead and its stored value is
returned, so the claim's universal form fails (see the counterexample). -/
theorem C4_search_absent_sentinel {s : SL} (hwf : WF s) (K : Int)
    (hnk : ¬ hasKey s K) (hne : K ≠ INT_MIN) : s.search K = INT_MIN :=
  (search_absent_char hwf K hnk).1 hne

theorem C4_witness :
    WF fresh ∧ ¬ hasKey fresh 99 ∧ (99 : Int) ≠ INT_MIN ∧
    fresh.search 99 = INT_MIN :=
  ⟨WF_fresh, by decide, by decide,
    C4_search_absent_sentinel WF_fresh 99 (by decide) (by decide)⟩

theorem C4_counterexample :
    ¬ hasKey (fresh.update INT_MIN 7).2 INT_MIN ∧
    (fresh.update INT_MIN 7).2.search INT_MIN = 7 ∧ (7 : Int) ≠ INT_MIN := by
  decide

/-- C7: on every drawn word the level selector returns one plus the index of
the word's first zero bit, capped at `MAX_LEVEL`, hence a height in
`[1, MAX_LEVEL]`. -/
theorem C7_randomLevel_height (rd : Nat) :
    1 ≤ randomLevel rd MAX_LEVEL ∧ randomLevel rd MAX_LEVEL ≤ MAX_LEVEL ∧
    randomLevel rd MAX_LEVEL = min (firstZeroBit rd + 1) MAX_LEVEL := by
  have h : randomLevel rd MAX_LEVEL = min (firstZeroBit rd + 1) MAX_LEVEL :=
    randomLevel_eq rd
  refine ⟨?_, ?_, h⟩
  · rw [h]
    have : (0 : Nat) < MAX_LEVEL := by decide
    omega
  · rw [h]
    omega

/-- C8 (amended): construction performs no validation at all — any maximum
level count, zero included, yields a constructed container whose head holds
that many (possibly zero) forward links, rather than being rejected. -/
theorem C8_construction_no_validation (maxlv : Nat) :
    (mkSkipList maxlv).heap.length = 1 ∧
    ((mkSkipList maxlv).node 0).key = INT_MIN ∧
    ((mkSkipList maxlv).node 0).next.length = maxlv ∧
    (mkSkipList maxlv).maxLevel_ = 0 := by
  refine ⟨rfl, rfl, ?_, rfl⟩
  unfold mkSkipList SL.node createNode
  simp

theorem C8_counterexample :
    (mkSkipList 0).heap.length = 1 ∧ ((mkSkipList 0).node 0).next.length = 0 := by
  decide

/-- C9: with no stored node holding `INT_MIN`, `search(INT_MIN)` matches the
head sentinel and returns its stored value as though the key were present, and
`update(INT_MIN, V)` reports success and overwrites the head's value. -/
theorem C9_head_sentinel_matches {s : SL} (hwf : WF s)
    (hnk : ¬ hasKey s INT_MIN) (V : Int) :
    s.search INT_MIN = (s.node 0).value ∧
    s.searchNode INT_MIN = some 0 ∧
    (s.update INT_MIN V).1 = 0 ∧
    ((s.update INT_MIN V).2.node 0).value = V := by
  obtain ⟨-, hm⟩ := search_absent_char hwf INT_MIN hnk
  obtain ⟨hs1, hs2⟩ := hm rfl
  refine ⟨hs1, hs2, ?_, ?_⟩
  · unfold SL.update
    rw [hs2]
  · unfold SL.update
    rw [hs2]
    show ((s.setValue 0 V).node 0).value = V
    rw [s.node_setValue_self V hwf.hlen]

theorem C9_witness :
    WF fresh ∧ ¬ hasKey fresh INT_MIN ∧
    (fresh.search INT_MIN = (fresh.node 0).value ∧
      fresh.searchNode INT_MIN = some 0 ∧
      (fresh.update INT_MIN 9).1 = 0 ∧
      ((fresh.update INT_MIN 9).2.node 0).value = 9) :=
  ⟨WF_fresh, by decide, C9_head_sentinel_matches WF_fresh (by decide) 9⟩

/-- C10: `remove(K)` on a key held by no stored node returns the sentinel
`-1` — distinct from `search`'s `INT_MIN` sentinel — and leaves the whole
state, every node and every forward link, unchanged. -/
theorem C10_remove_absent {s : SL} (hwf : WF s) (K : Int)
    (hno : ¬ hasKey s K) :
    s.remove K = (-1, s) ∧ (-1 : Int) ≠ INT_MIN :=
  ⟨remove_absent hwf hno, by decide⟩

theorem C10_witness :
    WF fresh ∧ ¬ hasKey fresh 5 ∧
    (fresh.remove 5 = (-1, fresh) ∧ (-1 : Int) ≠ INT_MIN) :=
  ⟨WF_fresh, by decide, C10_remove_absent WF_fresh 5 (by decide)⟩

/-- C1 (amended): in a well-formed, (key, value)-lexicographically sorted
container, inserting `(k, v)` splices the new node after all entries that are
lexicographically below `(k, v)` — for equal keys, those with value strictly
less than `v` — and before those at or above it (an existing entry with value
equal to `v` ends up after the new node, not before); nothing is deduplicated:
the level-0 chain keeps every old node and gains the new one. -/
theorem C1_insert_equal_key_placement {s : SL} (hwf : WF s) (hlex : LexSorted s)
    (k v : Int) (lvl : Nat) (h1 : 1 ≤ lvl) (h32 : lvl ≤ MAX_LEVEL)
    (hk : INT_MIN ≤ k) :
    ∃ pre post : List Nat,
      sChain s 0 = pre ++ post ∧
      sChain (s.insert k v lvl).2 0 = pre ++ s.heap.length :: post ∧
      (∀ a ∈ pre, (s.node a).key = k → (s.node a).value < v) ∧
      (∀ b ∈ post, (s.node b).key = k → v ≤ (s.node b).value) ∧
      (((s.insert k v lvl).2.node s.heap.length).key = k ∧
        ((s.insert k v lvl).2.node s.heap.length).value = v) ∧
      (∀ a ∈ sChain s 0, ((s.insert k v lvl).2.node a).key = (s.node a).key ∧
        ((s.insert k v lvl).2.node a).value = (s.node a).value) := by
  obtain ⟨-, hlen, -, hkeys, hwfu, pre, post, hmain⟩ := insert_main hwf k v lvl h1 h32 hk
  obtain ⟨hsplit, hpre, hpost, hlow, -⟩ := hmain 0 (by decide)
  refine ⟨pre 0, post 0, hsplit, hlow (by omega), ?_, ?_, ?_, ?_⟩
  · intro a ha hak
    have hne : pre 0 ≠ [] := List.ne_nil_of_mem ha
    have hgl := List.getLast?_eq_getLast (pre 0) hne
    have hcond := hpre _ hgl
    have hxlt : (s.node ((pre 0).getLast hne)).key < k ∨
        ((s.node ((pre 0).getLast hne)).key = k ∧
          (s.node ((pre 0).getLast hne)).value < v) := by
      unfold insertCond at hcond
      rcases hcond with h | ⟨h1x, h2x⟩
      · exact Or.inl (comparator_lt_zero_iff.1 h)
      · exact Or.inr ⟨comparator_eq_zero_iff.1 h1x, comparator_lt_zero_iff.1 h2x⟩
    have hlex0 := hlex 0 (by decide)
    rw [hsplit] at hlex0
    have hlexpre := (List.pairwise_append.1 hlex0).1
    rcases pairwise_getLast hlexpre hgl a ha with he | hle
    · subst he
      omega
    · have hle2 : (s.node a).key < (s.node ((pre 0).getLast hne)).key ∨
          ((s.node a).key = (s.node ((pre 0).getLast hne)).key ∧
            (s.node a).value ≤ (s.node ((pre 0).getLast hne)).value) := hle
      omega
  · intro b hb hbk
    rcases hpost with hnil | ⟨b0, hb0, hb0c⟩
    · rw [hnil] at hb
      cases hb
    · have hb0ge : k < (s.node b0).key ∨
          (k = (s.node b0).key ∧ v ≤ (s.node b0).value) :=
        lexLE_of_not_lexLT (fun hc => hb0c (insertCond_iff.2 hc))
      have hlex0 := hlex 0 (by decide)
      rw [hsplit] at hlex0
      have hlexpost := (List.pairwise_append.1 hlex0).2.1
      rcases hD : post 0 with _ | ⟨b0x, tail⟩
      · rw [hD] at hb
        cases hb
      · rw [hD] at hb hb0 hlexpost
        rw [List.head?_cons] at hb0
        injection hb0 with he
        rw [← he] at hb0ge
        rcases List.mem_cons.1 hb with rfl | hbt
        · omega
        · have hlexb : (s.node b0x).key < (s.node b).key ∨
              ((s.node b0x).key = (s.node b).key ∧
                (s.node b0x).value ≤ (s.node b).value) :=
            (List.pairwise_cons.1 hlexpost).1 b hbt
          omega
  · exact ⟨by rw [(hkeys _).1, if_pos rfl], by rw [(hkeys _).2, if_pos rfl]⟩
  · intro a ha
    have hlt := (hwf.valid0 ha).2
    exact ⟨by rw [(hkeys a).1, if_neg (by omega)],
      by rw [(hkeys a).2, if_neg (by omega)]⟩

theorem C1_witness :
    WF fresh ∧ LexSorted fresh ∧ 1 ≤ 1 ∧ 1 ≤ MAX_LEVEL ∧ INT_MIN ≤ (5 : Int) ∧
    (∃ pre post : List Nat,
      sChain fresh 0 = pre ++ post ∧
      sChain (fresh.insert 5 7 1).2 0 = pre ++ fresh.heap.length :: post ∧
      (∀ a ∈ pre, (fresh.node a).key = 5 → (fresh.node a).value < 7) ∧
      (∀ b ∈ post, (fresh.node b).key = 5 → 7 ≤ (fresh.node b).value) ∧
      (((fresh.insert 5 7 1).2.node fresh.heap.length).key = 5 ∧
        ((fresh.insert 5 7 1).2.node fresh.heap.length).value = 7) ∧
      (∀ a ∈ sChain fresh 0,
        ((fresh.insert 5 7 1).2.node a).key = (fresh.node a).key ∧
        ((fresh.insert 5 7 1).2.node a).value = (fresh.node a).value)) :=
  ⟨WF_fresh, LexSorted_fresh, by decide, by decide, by decide,
    C1_insert_equal_key_placement WF_fresh LexSorted_fresh 5 7 1
      (by decide) (by decide) (by decide)⟩

theorem C1_counterexample :
    sChain ((fresh.insert 5 7 1).2.insert 5 7 1).2 0 = [2, 1] ∧
    ((((fresh.insert 5 7 1).2.insert 5 7 1).2.node 1).key = 5 ∧
      (((fresh.insert 5 7 1).2.insert 5 7 1).2.node 1).value = 7) ∧
    ((((fresh.insert 5 7 1).2.insert 5 7 1).2.node 2).key = 5 ∧
      (((fresh.insert 5 7 1).2.insert 5 7 1).2.node 2).value = 7) := by
  decide

/-- C2 (amended): for every key `K` strictly above the key type's minimum and
not stored, and any value `V`, after `insert(K, V)` a `remove(K)` returns `V`
and a subsequent `search(K)` reports absent (returns the `INT_MIN` sentinel).
At `K = INT_MIN` the final search can instead report the head sentinel's
value (see the counterexample). -/
theorem C2_insert_remove_search {s : SL} (hwf : WF s) (K V : Int)
    (lvl : Nat) (hk : INT_MIN < K) (hnk : ¬ hasKey s K)
    (h1 : 1 ≤ lvl) (h32 : lvl ≤ MAX_LEVEL) :
    ((s.insert K V lvl).2.remove K).1 = V ∧
    ((s.insert K V lvl).2.remove K).2.search K = INT_MIN := by
  obtain ⟨-, hlen, -, hkeys, hwfu, pre, post, hmain⟩ :=
    insert_main hwf K V lvl h1 h32 (le_of_lt hk)
  obtain ⟨hsplit, hpre, hpost, hlow, -⟩ := hmain 0 (by decide)
  have hchain_u : sChain (s.insert K V lvl).2 0 =
      pre 0 ++ s.heap.length :: post 0 := hlow (by omega)
  have hkeyna : ((s.insert K V lvl).2.node s.heap.length).key = K := by
    rw [(hkeys _).1, if_pos rfl]
  have hvana : ((s.insert K V lvl).2.node s.heap.length).value = V := by
    rw [(hkeys _).2, if_pos rfl]
  have hkeyold : ∀ a ∈ sChain s 0,
      ((s.insert K V lvl).2.node a).key = (s.node a).key := by
    intro a ha
    rw [(hkeys a).1, if_neg (by have := (hwf.valid0 ha).2; omega)]
  have hkneold : ∀ a ∈ sChain s 0, ((s.insert K V lvl).2.node a).key ≠ K := by
    intro a ha hc
    rw [hkeyold a ha] at hc
    exact hnk ⟨a, ha, hc⟩
  have hprelt : ∀ a ∈ pre 0, ((s.insert K V lvl).2.node a).key < K := by
    intro a ha
    have hmem : a ∈ sChain s 0 := by
      rw [hsplit]
      exact List.mem_append_left _ ha
    have hne : pre 0 ≠ [] := List.ne_nil_of_mem ha
    have hgl := List.getLast?_eq_getLast (pre 0) hne
    have hcond := hpre _ hgl
    have hxle : (s.node ((pre 0).getLast hne)).key ≤ K := by
      unfold insertCond at hcond
      rcases hcond with h | ⟨h, -⟩
      · exact le_of_lt (comparator_lt_zero_iff.1 h)
      · exact le_of_eq (comparator_eq_zero_iff.1 h)
    have hsort0 := hwf.hsort 0 (by decide)
    rw [hsplit] at hsort0
    have hsortpre := (List.pairwise_append.1 hsort0).1
    have hne2 : (s.node a).key ≠ K := by
      have h3 := hkneold a hmem
      rwa [hkeyold a hmem] at h3
    rw [hkeyold a hmem]
    rcases pairwise_getLast hsortpre hgl a ha with he | hle
    · rw [he]
      rw [he] at hne2
      omega
    · omega
  have hnapre : s.heap.length ∉ pre 0 := by
    intro hmm
    have hmem : s.heap.length ∈ sChain s 0 := by
      rw [hsplit]
      exact List.mem_append_left _ hmm
    have := (hwf.valid0 hmem).2
    omega
  have hPna : (decide (removeCond K ((s.insert K V lvl).2.node s.heap.length))) =
      false := by
    refine decide_eq_false ?_
    rw [removeCond_iff, hkeyna]
    omega
  have hall : ∀ a ∈ pre 0,
      (fun a => decide (removeCond K ((s.insert K V lvl).2.node a))) a = true :=
    fun a ha => decide_eq_true (removeCond_iff.2 (hprelt a ha))
  have hsuf : remSuf (s.insert K V lvl).2 K 0 = s.heap.length :: post 0 := by
    unfold remSuf
    rw [hchain_u, dropWhile_append_all hall, List.dropWhile_cons, hPna]
    simp only [Bool.false_eq_true, if_false]
  have hsufhead : (remSuf (s.insert K V lvl).2 K 0).head? = some s.heap.length := by
    rw [hsuf, List.head?_cons]
  have hremnew : remNew (s.insert K V lvl).2 K 0 = pre 0 ++ post 0 := by
    rw [remNew_eq_erase hsufhead hkeyna, hchain_u,
      List.erase_append_right _ hnapre, List.erase_cons_head]
  obtain ⟨hr1, hr2, hr3, hr4, hr5, hr6, hr7⟩ := remove_main hwfu K
  constructor
  · rw [hr6 s.heap.length hsufhead hkeyna]
    exact hvana
  · have hnk2 : ¬ hasKey ((s.insert K V lvl).2.remove K).2 K := by
      intro hkk
      obtain ⟨a, ha, hka⟩ := hkk
      rw [hr4 0, hremnew] at ha
      have hmem : a ∈ sChain s 0 := by
        rw [hsplit]
        exact ha
      rw [(hr3 a).1] at hka
      exact hkneold a hmem hka
    exact (search_absent_char hr5 K hnk2).1 (by omega)

theorem C2_witness :
    WF fresh ∧ INT_MIN < (5 : Int) ∧ ¬ hasKey fresh 5 ∧ 1 ≤ 1 ∧ 1 ≤ MAX_LEVEL ∧
    (((fresh.insert 5 7 1).2.remove 5).1 = 7 ∧
      ((fresh.insert 5 7 1).2.remove 5).2.search 5 = INT_MIN) :=
  ⟨WF_fresh, by decide, by decide, by decide, by decide,
    C2_insert_remove_search WF_fresh 5 7 1 (by decide) (by decide)
      (by decide) (by decide)⟩

theorem C2_counterexample :
    ¬ hasKey (fresh.update INT_MIN 7).2 INT_MIN ∧
    (((fresh.update INT_MIN 7).2.insert INT_MIN 5 1).2.remove INT_MIN).1 = 5 ∧
    (((fresh.update INT_MIN 7).2.insert INT_MIN 5 1).2.remove
        INT_MIN).2.search INT_MIN = 7 ∧
    (7 : Int) ≠ INT_MIN := by
  decide

/-- C5 (amended): after `clear()` every forward link of the head is null,
every chain is empty, a second `clear()` is a no-op, and `search` reports
absent for every key other than `INT_MIN`; `search(INT_MIN)` still returns the
head sentinel's stored value, which `clear` does not reset (see the
counterexample). -/
theorem C5_clear_resets {s : SL} (hwf : WF s) :
    (∀ i, s.clear.nxt 0 i = none) ∧
    (∀ j, sChain s.clear j = []) ∧
    (∀ K, K ≠ INT_MIN → s.clear.search K = INT_MIN) ∧
    s.clear.clear = s.clear ∧
    WF s.clear := by
  obtain ⟨hwfc, hl, hml, hnodes, hempty, hnone, hidem⟩ := clear_main hwf
  refine ⟨hnone, hempty, ?_, hidem, hwfc⟩
  intro K hne
  have hnk : ¬ hasKey s.clear K := by
    intro hkk
    obtain ⟨a, ha, -⟩ := hkk
    rw [hempty 0] at ha
    cases ha
  exact (search_absent_char hwfc K hnk).1 hne

theorem C5_witness :
    WF fresh ∧
    ((∀ i, fresh.clear.nxt 0 i = none) ∧
      (∀ j, sChain fresh.clear j = []) ∧
      (∀ K, K ≠ INT_MIN → fresh.clear.search K = INT_MIN) ∧
      fresh.clear.clear = fresh.clear ∧
      WF fresh.clear) :=
  ⟨WF_fresh, C5_clear_resets WF_fresh⟩

theorem C5_counterexample :
    (fresh.update INT_MIN 7).2.clear.search INT_MIN = 7 ∧
    (7 : Int) ≠ INT_MIN := by
  decide

/-- C6 (amended): in every state reachable by `insert`, `update`, `remove` and
`clear` from the fresh container, every level's chain is weakly sorted by key
(non-decreasing); the strict form fails because duplicate keys are allowed
(see the counterexample). -/
theorem C6_reachable_sorted {s : SL} (hr : Reach s) :
    ∀ i, List.Pairwise (fun a b => (s.node a).key ≤ (s.node b).key)
      (sChain s i) :=
  fun i => (Reach_WF hr).sorted_chain i

theorem C6_witness :
    Reach fresh ∧
    (∀ i, List.Pairwise (fun a b => (fresh.node a).key ≤ (fresh.node b).key)
      (sChain fresh i)) :=
  ⟨Reach.base, C6_reachable_sorted Reach.base⟩

theorem C6_counterexample :
    Reach ((fresh.insert 5 7 1).2.insert 5 7 1).2 ∧
    ¬ List.Pairwise (fun a b =>
        (((fresh.insert 5 7 1).2.insert 5 7 1).2.node a).key <
          (((fresh.insert 5 7 1).2.insert 5 7 1).2.node b).key)
      (sChain ((fresh.insert 5 7 1).2.insert 5 7 1).2 0) :=
  ⟨Reach.ins 5 7 1
      (Reach.ins 5 7 1 Reach.base (by decide) (by decide) (by decide) (by decide))
      (by decide) (by decide) (by decide) (by decide),
    by decide⟩

end SkipListVerif
